import Mathlib

/-!
Verification development for the MyDevInsights analysis pipeline.

Shallow embedding of the pieces of the code base that the checked claims
are about:

* the BullMQ queue defaults of the backend queue client
  (src/backend/src/lib/analysis-queue.ts),
* the rate-limited executor (rate-limiter.ts, bundled after
  src/analyzer-worker/src/lib/context-extractor.ts),
* the Redis result cache (src/analyzer-worker/src/lib/cache.ts),
* the project validator (src/file-watcher/src/lib/validator.ts),
* the worker processor and its database writes
  (src/analyzer-worker/src/lib/worker-processor.ts) together with the
  bus events of the websocket emitter,
* the token-budgeted context extractor (context-extractor.ts),
* the per-key debouncer of the file watcher (debounce.ts).

Conventions: machine integers are Nat or Int (no overflow is reachable in
the embedded fragments); timestamps are milliseconds as Nat; JavaScript
strings are Lean String; fallible code returns Option or Except; Redis and
the relational store are explicit state values threaded through the
functions.  Decimal confidence literals of the validator are scaled by 100
(0.95 becomes 95) so that comparisons stay exact.
-/

namespace DevInsights

/-! ## Small helpers shared by several embeddings -/

/-- Whether the first list is an initial segment of the second. -/
def leadMatch : List Char → List Char → Bool
  | [], _ => true
  | _ :: _, [] => false
  | p :: ps, s :: ss => p == s && leadMatch ps ss

/-- JavaScript `s.includes(pat)`: true iff `pat` occurs as a substring of
`s` (at any start offset). -/
def jsIncludes (s pat : String) : Bool :=
  let ss := s.toList
  let ps := pat.toList
  (List.range (ss.length + 1)).any (fun i => leadMatch ps (ss.drop i))

/-- String startsWith over the character lists (same semantics as the
library function, structurally recursive). -/
def strStartsWith (s pre : String) : Bool :=
  leadMatch pre.toList s.toList

/-- ASCII-style lowercasing over the character list (same semantics as the
library function on the names involved, structurally recursive). -/
def strToLower (s : String) : String :=
  String.mk (s.toList.map Char.toLower)

/-! ## C5 - queue defaults (analysis-queue.ts, AnalysisQueueClient.initialize) -/

/-- BullMQ backoff options as passed to the Queue constructor. -/
structure QueueBackoff where
  kind : String
  delay : Nat
  deriving Repr, DecidableEq

/-- BullMQ retention options: a maximal kept count and an optional maximal
age in seconds. -/
structure QueueRetention where
  count : Nat
  age : Option Nat
  deriving Repr, DecidableEq

/-- The defaultJobOptions record of a BullMQ queue. -/
structure QueueJobOptions where
  attempts : Nat
  backoff : QueueBackoff
  removeOnComplete : QueueRetention
  removeOnFail : QueueRetention
  deriving Repr, DecidableEq

/-- The literal defaultJobOptions the backend passes when creating the
project-analysis queue (analysis-queue.ts lines 39-56): attempts 3,
exponential backoff with 2000 ms base, keep the last 100 completed jobs for
at most 24 hours, keep the last 500 failed jobs with no age bound. -/
def analysisQueueJobOptions : QueueJobOptions :=
  { attempts := 3
    backoff := { kind := "exponential", delay := 2000 }
    removeOnComplete := { count := 100, age := some (24 * 3600) }
    removeOnFail := { count := 500, age := none } }

/-! ## C3 - rate-limited executor (rate-limiter.ts, RateLimiter.execute) -/

/-- A JavaScript error value as the rate limiter inspects it: an optional
transport status code and a message string. -/
structure JsError where
  status : Option Nat
  message : String
  deriving Repr, DecidableEq

/-- The classification RateLimiter.execute actually computes (lines
480-482): status 429, or a message containing "rate limit" or "429".  It is
used only to choose the backoff base, never to decide whether to retry. -/
def isRateLimitError (e : JsError) : Bool :=
  e.status == some 429 || jsIncludes e.message "rate limit" ||
    jsIncludes e.message "429"

/-- Modelled from the spec (for the comparison in claim C3): an error is
retryable when the transport reports status 429 or 529, or the message
contains rate_limit, overloaded, aborted, or timed out.  This definition
follows the words of the spec, not the code. -/
def specRetryable (e : JsError) : Bool :=
  e.status == some 429 || e.status == some 529 ||
    jsIncludes e.message "rate_limit" || jsIncludes e.message "overloaded" ||
    jsIncludes e.message "aborted" || jsIncludes e.message "timed out"

/-- The retry loop of RateLimiter.execute (lines 451-505).  `fn i` is the
outcome of the wrapped call at attempt number `i` (the slot waiting and the
backoff sleeps do not influence which outcome is taken and are dropped from
the state).  The loop is `while attempt < maxRetries`; it is embedded
structurally on `remaining = maxRetries - attempt`.  The returned Nat is
the number of times `fn` was invoked. -/
def executeLoop (fn : Nat → Except JsError α) :
    Nat → Nat → Option JsError → Except JsError α × Nat
  | 0, attempt, lastError =>
      (Except.error (lastError.getD { status := none, message := "" }), attempt)
  | remaining + 1, attempt, _ =>
      match fn attempt with
      | Except.ok v => (Except.ok v, attempt + 1)
      | Except.error e => executeLoop fn remaining (attempt + 1) (some e)

/-- RateLimiter.execute with the resolved maxRetries value. -/
def rateLimiterExecute (fn : Nat → Except JsError α) (maxRetries : Nat) :
    Except JsError α × Nat :=
  executeLoop fn maxRetries 0 none

/-- calculateBackoff (lines 510-524) over the rationals; `j` is the sampled
jitter factor, the value of Math.random times two minus one, in [-1, 1]. -/
def calculateBackoff (initialDelayMs backoffMultiplier : ℚ) (attempt : Nat)
    (isRateLimit : Bool) (j : ℚ) : ℚ :=
  let baseDelay := if isRateLimit then initialDelayMs * 3 else initialDelayMs
  let delay := baseDelay * backoffMultiplier ^ (attempt - 1)
  let jitter := delay * (1 / 5) * j
  min (delay + jitter) 60000

/-- A wrapped call that fails once with an error that the spec classifies as
non-retryable (no status, message "boom") and then succeeds. -/
def c3CallOutcomes : Nat → Except JsError Nat
  | 0 => Except.error { status := none, message := "boom" }
  | _ => Except.ok 42

/-! ## Shared data model: analysis results (types.ts) -/

/-- Timestamps in milliseconds since the epoch. -/
abbrev Millis := Nat

/-- AnalysisMetadata (types.ts).  cacheHit is set by the Claude analyzer to
whether the provider reported cache_read_input_tokens greater than zero,
that is, whether the prompt cache was hit when the result was computed. -/
structure AnalysisMetadata where
  model : String
  tokensUsed : Nat
  cacheHit : Bool
  duration : Millis
  deriving Repr, DecidableEq

/-- AnalysisResult (types.ts).  The dynamic JSON blobs techStack,
recommendations, productionGaps and estimatedValue are carried as opaque
strings: no embedded code inspects their shape. -/
structure AnalysisResult where
  projectId : String
  summary : String
  techStack : String
  complexity : String
  recommendations : String
  completionScore : Nat
  maturityLevel : String
  productionGaps : String
  estimatedValue : String
  metadata : AnalysisMetadata
  deriving Repr, DecidableEq

/-- A concrete analysis result whose metadata records a prompt-cache miss
(cacheHit false), as the analyzer produces on a first fresh analysis. -/
def sampleResult : AnalysisResult :=
  { projectId := "p1"
    summary := "a demo project"
    techStack := "ts"
    complexity := "moderate"
    recommendations := "r"
    completionScore := 50
    maturityLevel := "mvp"
    productionGaps := "g"
    estimatedValue := "v"
    metadata := { model := "m", tokensUsed := 100, cacheHit := false, duration := 10 } }

/-! ## C8 - Redis result cache (cache.ts, CacheManager) -/

/-- The stored cache value (CachedAnalysis in types.ts).  Dates are
milliseconds. -/
structure CachedAnalysis where
  result : AnalysisResult
  projectHash : String
  lastModified : Millis
  createdAt : Millis
  expiresAt : Millis
  deriving Repr, DecidableEq

/-- The Redis key-value store visible to the cache manager: an association
list from key to stored entry.  The storage-level TTL that SETEX attaches
expires entries at the same instant as the application-level expiresAt
check; Redis expiry is passive and may retain a key past its deadline, so
the store is modelled as not expiring on its own and the application-level
check in get is authoritative. -/
abbrev RedisStore := List (String × CachedAnalysis)

def storeGet (st : RedisStore) (k : String) : Option CachedAnalysis :=
  (st.find? (fun p => p.1 == k)).map (fun p => p.2)

def storeSet (st : RedisStore) (k : String) (v : CachedAnalysis) : RedisStore :=
  (k, v) :: st.filter (fun p => !(p.1 == k))

def storeDel (st : RedisStore) (k : String) : RedisStore :=
  st.filter (fun p => !(p.1 == k))

/-- generateCacheKey (cache.ts lines 31-38): the key is the "analysis:"
prefix followed by sha256 of path, ":", and the ISO timestamp.  sha256 is
modelled as the identity on its input (it is injective for the purpose of
the map), and the ISO rendering of a Date as the decimal rendering of its
millisecond value (also injective). -/
def generateCacheKey (projectPath : String) (lastModified : Millis) : String :=
  "analysis:" ++ projectPath ++ ":" ++ toString lastModified

/-- CacheManager.get (cache.ts lines 43-68), with the current clock `now`
explicit.  Returns the entry (when present and not expired) together with
the store after the delete-on-expiry side effect.  The expiry comparison is
the code's `new Date(parsed.expiresAt) < new Date()`. -/
def cacheGet (st : RedisStore) (now : Millis) (projectPath : String)
    (lastModified : Millis) : Option CachedAnalysis × RedisStore :=
  let key := generateCacheKey projectPath lastModified
  match storeGet st key with
  | none => (none, st)
  | some parsed =>
      if parsed.expiresAt < now then (none, storeDel st key)
      else (some parsed, st)

/-- CacheManager.set (cache.ts lines 73-97), ttl in seconds as stored in the
manager.  projectHash is sha256 of the path, modelled as the path itself. -/
def cacheSet (st : RedisStore) (now : Millis) (ttlSeconds : Nat)
    (projectPath : String) (lastModified : Millis) (result : AnalysisResult) :
    RedisStore :=
  let key := generateCacheKey projectPath lastModified
  let cached : CachedAnalysis :=
    { result := result
      projectHash := projectPath
      lastModified := lastModified
      createdAt := now
      expiresAt := now + ttlSeconds * 1000 }
  storeSet st key cached

/-! ## C1, C2, C4, C10 - worker processor (worker-processor.ts) -/

/-- The events the websocket emitter publishes on the bus
(websocket-emitter.ts): the four analysis event types.  Progress events
carry the status string and percent of the JobProgress payload; the result
payload of completed and the error payload of failed are not inspected by
any claim and are elided. -/
inductive BusEvent where
  | started (projectId : String)
  | progress (projectId : String) (status : String) (percent : Nat)
  | completed (projectId : String)
  | failed (projectId : String)
  deriving Repr, DecidableEq

def isStarted : BusEvent → Bool
  | BusEvent.started _ => true
  | _ => false

def isProgress : BusEvent → Bool
  | BusEvent.progress _ _ _ => true
  | _ => false

/-- A terminal event: analysis:completed or analysis:failed. -/
def isTerminal : BusEvent → Bool
  | BusEvent.completed _ => true
  | BusEvent.failed _ => true
  | _ => false

/-- The project row fields the processor touches (prisma schema). -/
structure ProjectRow where
  status : String
  analyzedAt : Option Millis
  fileCount : Option Nat
  linesOfCode : Option Nat
  size : Option Nat
  deriving Repr, DecidableEq

/-- The projectAnalysis row fields the processor writes
(saveToDatabase lines 280-295); the JSON blob columns are carried opaquely
inside the copied AnalysisResult fields that matter to the claims. -/
structure AnalysisRow where
  projectId : String
  summary : String
  model : String
  tokensUsed : Nat
  cacheHit : Bool
  deriving Repr, DecidableEq

/-- The database state a single job touches: its project row and the
analyses table restricted to that project (append order preserved). -/
structure Db where
  project : ProjectRow
  analyses : List AnalysisRow
  deriving Repr, DecidableEq

/-- The row projectAnalysis.create inserts for a result (saveToDatabase
lines 280-295). -/
def analysisRowOf (r : AnalysisResult) : AnalysisRow :=
  { projectId := r.projectId
    summary := r.summary
    model := r.metadata.model
    tokensUsed := r.metadata.tokensUsed
    cacheHit := r.metadata.cacheHit }

/-- One database write of the processor. -/
inductive DbWrite where
  | createAnalysis (row : AnalysisRow)
  | updateProjectAnalyzed (status : String) (analyzedAt : Millis)
  deriving Repr, DecidableEq

/-- The transaction list saveToDatabase issues (lines 278-311): each awaited
Prisma call runs as its own implicit transaction, and the source does not
wrap the two calls in prisma.$transaction, so the list has two singleton
transactions: first the projectAnalysis.create, then the project.update to
ANALYZED. -/
def saveToDatabaseTxns (r : AnalysisResult) (now : Millis) :
    List (List DbWrite) :=
  [[DbWrite.createAnalysis (analysisRowOf r)],
   [DbWrite.updateProjectAnalyzed "ANALYZED" now]]

def applyWrite (db : Db) : DbWrite → Db
  | DbWrite.createAnalysis row => { db with analyses := db.analyses ++ [row] }
  | DbWrite.updateProjectAnalyzed s t =>
      { db with project := { db.project with status := s, analyzedAt := some t } }

def applyTxn (db : Db) (txn : List DbWrite) : Db :=
  txn.foldl applyWrite db

/-- The database states a concurrent reader can observe while a transaction
list executes: the state before, after each transaction, including the
final state. -/
def dbStatesDuring (db : Db) (txns : List (List DbWrite)) : List Db :=
  txns.scanl applyTxn db

/-- The net effect of saveToDatabase on the database. -/
def saveToDatabase (db : Db) (r : AnalysisResult) (now : Millis) : Db :=
  (saveToDatabaseTxns r now).foldl applyTxn db

/-- The environment one processJob run executes in.  Each flag resolves one
suspension point of the source: pathOk is whether validateProjectPath and
the fs.stat succeed; cached is what cacheManager.get returns; extractOk is
whether context extraction beats its 30 s timeout; metaUpdateOk whether the
project metadata update succeeds; analyzeResult is the final outcome of the
rate-limited analyze call (none when it ultimately failed); saveOk whether
the saveToDatabase writes succeed.  Bus publishes and job.updateProgress
are modelled as succeeding; cacheManager.set catches its own errors and
never throws. -/
structure JobEnv where
  projectId : String
  forceRefresh : Bool
  pathOk : Bool
  cached : Option AnalysisResult
  extractOk : Bool
  fileCount : Nat
  linesOfCode : Nat
  totalSize : Nat
  metaUpdateOk : Bool
  analyzeResult : Option AnalysisResult
  saveOk : Bool
  deriving Repr, DecidableEq

/-- The two events every failure path emits from the catch handler
(worker-processor.ts lines 208-226): emitFailed, then the failed progress
update, which itself publishes an analysis:progress event. -/
def failTail (pid : String) : List BusEvent :=
  [BusEvent.failed pid, BusEvent.progress pid "failed" 0]

/-- WorkerProcessor.processJob (lines 66-227): the list of bus events the
run publishes, in order, and the database state it leaves.  Mirrors the
source control flow: started and the queued progress, path validation, the
cache probe (unless forceRefresh), the cache-hit short circuit through
saveToDatabase, otherwise extraction, the metadata update, the rate-limited
analyze, caching, saveToDatabase, and in every catch the failTail. -/
def processJob (env : JobEnv) (db : Db) (now : Millis) : List BusEvent × Db :=
  let pid := env.projectId
  let t0 : List BusEvent := [BusEvent.started pid, BusEvent.progress pid "queued" 0]
  if env.pathOk = false then
    (t0 ++ failTail pid, db)
  else
    match (if env.forceRefresh then none else env.cached) with
    | some r =>
        let t1 := t0 ++ [BusEvent.progress pid "extracting" 10]
        if env.saveOk = false then (t1 ++ failTail pid, db)
        else
          (t1 ++ [BusEvent.completed pid, BusEvent.progress pid "completed" 100],
           saveToDatabase db r now)
    | none =>
        let t1 := t0 ++
          (if env.forceRefresh then [] else [BusEvent.progress pid "extracting" 10])
        let t2 := t1 ++ [BusEvent.progress pid "extracting" 20]
        if env.extractOk = false then (t2 ++ failTail pid, db)
        else if env.metaUpdateOk = false then (t2 ++ failTail pid, db)
        else
          let db1 : Db :=
            { db with project :=
                { db.project with
                    fileCount := some env.fileCount
                    linesOfCode := some env.linesOfCode
                    size := some env.totalSize } }
          let t3 := t2 ++ [BusEvent.progress pid "analyzing" 50]
          match env.analyzeResult with
          | none => (t3 ++ failTail pid, db1)
          | some r =>
              let t4 := t3 ++ [BusEvent.progress pid "caching" 80,
                               BusEvent.progress pid "caching" 90]
              if env.saveOk = false then (t4 ++ failTail pid, db1)
              else
                (t4 ++ [BusEvent.completed pid, BusEvent.progress pid "completed" 100],
                 saveToDatabase db1 r now)

/-- The event order claim C1 states, as a predicate on a trace: a started
event first, then only progress events, then the terminal event last, with
no progress event after the terminal one. -/
def claimedEventOrder (tr : List BusEvent) : Bool :=
  match tr with
  | [] => false
  | e :: rest =>
      isStarted e &&
        match rest.reverse with
        | [] => false
        | t :: midRev => isTerminal t && midRev.all isProgress

/-- The order the code actually produces: a started event first, then
progress events, then the terminal event, then exactly one trailing
progress event (the 100 percent completed update on success, the failed
status update on failure). -/
def actualEventOrder (tr : List BusEvent) : Bool :=
  match tr with
  | [] => false
  | e :: rest =>
      isStarted e &&
        match rest.reverse with
        | p :: t :: midRev => isProgress p && isTerminal t && midRev.all isProgress
        | _ => false

/-- An initial database state for the concrete runs: a discovered project
with no analyses and no metadata yet. -/
def db0 : Db :=
  { project :=
      { status := "DISCOVERED", analyzedAt := none
        fileCount := none, linesOfCode := none, size := none }
    analyses := [] }

/-- A cache-hit environment: forceRefresh false, the cache holds
sampleResult (whose metadata records cacheHit false), everything succeeds. -/
def cacheHitEnv : JobEnv :=
  { projectId := "p1"
    forceRefresh := false
    pathOk := true
    cached := some sampleResult
    extractOk := true
    fileCount := 3
    linesOfCode := 120
    totalSize := 2048
    metaUpdateOk := true
    analyzeResult := none
    saveOk := true }

/-- A fresh-analysis environment: cache miss, analysis succeeds with
sampleResult. -/
def freshEnv : JobEnv :=
  { cacheHitEnv with cached := none, analyzeResult := some sampleResult }

/-! ## C6 - project validator (validator.ts) -/

/-- One directory entry as the validator observes it.  `readable` is
whether fs.stat of the entry (and, for directories, the nested readdir)
succeeds; `sub` is the file listing of the entry when it is a readable
directory, used by the nested-project check. -/
structure FsEntry where
  name : String
  isDir : Bool
  readable : Bool
  sub : List String
  deriving Repr, DecidableEq

/-- The directory under validation.  `readable` is whether the fs.stat of
the path and the readdir succeed; `dirName` is path.basename of the path;
`entries` is the readdir listing with per-entry stat information. -/
structure Dir where
  dirName : String
  isDirectory : Bool
  readable : Bool
  entries : List FsEntry
  deriving Repr, DecidableEq

/-- fs.stat of a child by name: the entry when present and readable, none
when the stat throws (the source skips such entries in its catch blocks). -/
def statChild (d : Dir) (n : String) : Option FsEntry :=
  (d.entries.find? (fun e => e.name == n)).filter (fun e => e.readable)

/-- SYSTEM_DIRECTORIES (validator.ts lines 28-45). -/
def systemDirectories : List String :=
  [".git", "node_modules", ".DS_Store", "__pycache__", "dist", "build",
   "target", ".vscode", ".idea", ".next", "out", "coverage", ".cache",
   "vendor", ".svn", ".hg"]

/-- PROJECT_MARKERS.python (validator.ts line 15). -/
def pythonMarkerNames : List String :=
  ["requirements.txt", "pyproject.toml", "setup.py", "Pipfile", "poetry.lock"]

/-- PROJECT_MARKERS.java (validator.ts line 18).  None of these contains a
star, so the filter in detectProjectType reduces to exact membership. -/
def javaMarkerNames : List String :=
  ["pom.xml", "build.gradle", "build.gradle.kts", "gradlew"]

/-- A detection candidate: project type and confidence.  Confidences are in
hundredths (95 means 0.95).  The framework, language and packageManager
metadata the source attaches do not influence validity or confidence and
are omitted. -/
structure Detection where
  projectType : String
  confidence : Nat
  deriving Repr, DecidableEq

/-- The root-level marker detections detectProjectType pushes (validator.ts
lines 127-215), in push order: node (package.json, 0.95), python (any
python marker; 0.9 with two or more markers, 0.7 with one), rust
(Cargo.toml, 0.95), go (go.mod, 0.95), java (any java marker, 0.9), php
(composer.json, 0.9), ruby (Gemfile, 0.9), flutter (pubspec.yaml, mapped to
nodejs, 0.95).  No branch checks the csharp markers. -/
def rootDetections (files : List String) : List Detection :=
  let pythonMarkers := pythonMarkerNames.filter (fun m => files.contains m)
  (if files.contains "package.json" then
    [{ projectType := "nodejs", confidence := 95 }] else []) ++
  (if pythonMarkers.length > 0 then
    [{ projectType := "python",
       confidence := if pythonMarkers.length ≥ 2 then 90 else 70 }] else []) ++
  (if files.contains "Cargo.toml" then
    [{ projectType := "rust", confidence := 95 }] else []) ++
  (if files.contains "go.mod" then
    [{ projectType := "go", confidence := 95 }] else []) ++
  (if (javaMarkerNames.filter (fun m => files.contains m)).length > 0 then
    [{ projectType := "java", confidence := 90 }] else []) ++
  (if files.contains "composer.json" then
    [{ projectType := "php", confidence := 90 }] else []) ++
  (if files.contains "Gemfile" then
    [{ projectType := "ruby", confidence := 90 }] else []) ++
  (if files.contains "pubspec.yaml" then
    [{ projectType := "nodejs", confidence := 95 }] else [])

/-- The subdirectories checkNestedProjects collects (validator.ts lines
260-272): readable directory entries whose name is not hidden and not a
system directory. -/
def nestedSubdirs (d : Dir) : List String :=
  (d.entries.map (fun e => e.name)).filter (fun f =>
    match statChild d f with
    | some e => e.isDir && !(strStartsWith f ".") && !(systemDirectories.contains f)
    | none => false)

/-- The per-subdirectory marker check of checkNestedProjects (lines
275-333); the readdir of an unreadable subdirectory is skipped. -/
def nestedCheckOne (d : Dir) (subdir : String) : Option Detection :=
  match statChild d subdir with
  | none => none
  | some e =>
      let subdirFiles := e.sub
      if subdirFiles.contains "package.json" then
        some { projectType := "nodejs", confidence := 85 }
      else if subdirFiles.contains "pubspec.yaml" then
        some { projectType := "nodejs", confidence := 85 }
      else if subdirFiles.contains "requirements.txt" ||
              subdirFiles.contains "pyproject.toml" then
        some { projectType := "python", confidence := 85 }
      else if subdirFiles.contains "Cargo.toml" then
        some { projectType := "rust", confidence := 85 }
      else if subdirFiles.contains "go.mod" then
        some { projectType := "go", confidence := 85 }
      else none

/-- checkNestedProjects (lines 250-336): the first subdirectory with a
marker wins. -/
def checkNestedProjects (d : Dir) : Option Detection :=
  (nestedSubdirs d).findSome? (nestedCheckOne d)

/-- checkForDirectories (lines 446-465): some listed name is in the target
set and stats as a directory. -/
def checkForDirectories (d : Dir) (targetDirs : List String) : Bool :=
  (d.entries.map (fun e => e.name)).any (fun f =>
    targetDirs.contains f &&
      match statChild d f with
      | some e => e.isDir
      | none => false)

/-- Node path.extname restricted to bare file names (no separators): the
suffix from the final dot, except that a dot in the leading position does
not start an extension. -/
def extname (s : String) : String :=
  let cs := s.toList
  let afterRev := cs.reverse.takeWhile (fun c => c ≠ '.')
  if afterRev.length = cs.length then ""
  else if afterRev.length + 1 = cs.length then ""
  else String.mk ('.' :: afterRev.reverse)

/-- The codeExtensions table of analyzeCodeFiles (lines 474-489). -/
def codeExtensionTable : List (String × List String) :=
  [("javascript", [".js", ".jsx", ".mjs", ".cjs"]),
   ("typescript", [".ts", ".tsx"]),
   ("python", [".py"]),
   ("rust", [".rs"]),
   ("go", [".go"]),
   ("java", [".java"]),
   ("csharp", [".cs"]),
   ("cpp", [".cpp", ".cc", ".cxx", ".h", ".hpp"]),
   ("c", [".c", ".h"]),
   ("php", [".php"]),
   ("ruby", [".rb"]),
   ("swift", [".swift"]),
   ("kotlin", [".kt"]),
   ("dart", [".dart"])]

/-- analyzeCodeFiles (lines 470-513) reduced to its boolean: it counts the
files per language by lowercased extension, sorts the counts descending and
asks whether the largest count is at least two; that is equivalent to some
language having at least two files. -/
def hasCodeFiles (files : List String) : Bool :=
  codeExtensionTable.any (fun p =>
    (files.filter (fun f => p.2.contains (strToLower (extname f)))).length ≥ 2)

/-- The README name test of detectGenericProject (lines 362-364): the two
case-insensitive regexes match exactly readme with no or one of the three
listed extensions. -/
def isReadmeName (f : String) : Bool :=
  let l := strToLower f
  l == "readme" || l == "readme.md" || l == "readme.txt" || l == "readme.rst"

def commonSourceDirs : List String :=
  ["src", "lib", "app", "components", "services", "utils", "core", "modules",
   "backend", "frontend", "server", "client", "api", "web", "ui", "packages",
   "apps"]

def genericConfigFiles : List String :=
  ["tsconfig.json", "jsconfig.json", ".eslintrc", ".prettierrc",
   "webpack.config.js", "vite.config.js", "rollup.config.js",
   "babel.config.js", ".babelrc", "Makefile", "CMakeLists.txt", "Dockerfile",
   "docker-compose.yml"]

def docsDirNames : List String := ["docs", "documentation", "doc"]

def testDirNames : List String := ["test", "tests", "__tests__", "spec"]

/-- detectGenericProject (lines 342-441): the additive confidence score,
capped at 0.95, with the project type defaulted to nodejs. -/
def detectGenericProject (d : Dir) : Detection :=
  let files := d.entries.map (fun e => e.name)
  let c1 := if files.contains ".git" then 25 else 0
  let c2 := if files.any isReadmeName then 15 else 0
  let c3 := if checkForDirectories d commonSourceDirs then 20 else 0
  let c4 := if hasCodeFiles files then 15 else 0
  let c5 := if files.any (fun f =>
      genericConfigFiles.contains f ||
        genericConfigFiles.any (fun c => strStartsWith f c)) then 10 else 0
  let c6 := if checkForDirectories d docsDirNames then 5 else 0
  let c7 := if checkForDirectories d testDirNames then 5 else 0
  { projectType := "nodejs", confidence := min (c1 + c2 + c3 + c4 + c5 + c6 + c7) 95 }

/-- The stable descending insertion used to embed the JavaScript
detections.sort comparing by confidence descending: an element is placed
before the first strictly-smaller entry and after equal ones, which is
exactly the stable order Array.prototype.sort produces with the comparator
b.confidence - a.confidence. -/
def insertByConfDesc (x : Detection) : List Detection → List Detection
  | [] => [x]
  | y :: ys =>
      if y.confidence ≤ x.confidence then x :: y :: ys
      else y :: insertByConfDesc x ys

def sortByConfDesc : List Detection → List Detection
  | [] => []
  | x :: xs => insertByConfDesc x (sortByConfDesc xs)

/-- The final selection of detectProjectType (lines 234-243): unknown with
confidence 0 when no detection was pushed, otherwise the first entry of the
descending sort, i.e. a highest-confidence detection. -/
def pickBest (l : List Detection) : Detection :=
  match sortByConfDesc l with
  | [] => { projectType := "unknown", confidence := 0 }
  | best :: _ => best

/-- The confidence of the first detection of a list (0 when empty); used to
reason about the sorted list. -/
def headConf : List Detection → Nat
  | [] => 0
  | b :: _ => b.confidence

/-- detectProjectType (lines 115-244): root markers, else the nested check,
else the generic score when positive, else unknown with confidence 0; the
highest-confidence detection wins. -/
def detectProjectType (d : Dir) : Detection :=
  let base := rootDetections (d.entries.map (fun e => e.name))
  let withNested :=
    if base.isEmpty then
      match checkNestedProjects d with
      | some x => [x]
      | none => []
    else base
  let detections :=
    if withNested.isEmpty then
      (let g := detectGenericProject d
       if g.confidence > 0 then [g] else [])
    else withNested
  pickBest detections

/-- The validator verdict (ValidationResult in the file-watcher types). -/
structure ValidationResult where
  isValid : Bool
  projectType : String
  confidence : Nat
  deriving Repr, DecidableEq

/-- validateProject (validator.ts lines 50-110): reject unreadable paths,
non-directories, system or hidden directory names and empty directories;
otherwise detect and reject below confidence 0.5. -/
def validateProject (d : Dir) : ValidationResult :=
  if d.readable = false then
    { isValid := false, projectType := "unknown", confidence := 0 }
  else if d.isDirectory = false then
    { isValid := false, projectType := "unknown", confidence := 0 }
  else if systemDirectories.contains d.dirName || strStartsWith d.dirName "." then
    { isValid := false, projectType := "unknown", confidence := 0 }
  else if d.entries.isEmpty then
    { isValid := false, projectType := "unknown", confidence := 0 }
  else
    let det := detectProjectType d
    if det.confidence < 50 then
      { isValid := false, projectType := "unknown", confidence := det.confidence }
    else
      { isValid := true, projectType := det.projectType, confidence := det.confidence }

/-- A directory whose only marker is a single python marker file. -/
def pyOnlyDir : Dir :=
  { dirName := "myproj"
    isDirectory := true
    readable := true
    entries :=
      [{ name := "requirements.txt", isDir := false, readable := true, sub := [] },
       { name := "main.py", isDir := false, readable := true, sub := [] }] }

/-- A directory whose only marker is a csharp project file: the spec lists
star-dot-csproj as a strong marker, but no branch of detectProjectType
checks it. -/
def csprojOnlyDir : Dir :=
  { dirName := "csdemo"
    isDirectory := true
    readable := true
    entries :=
      [{ name := "app.csproj", isDir := false, readable := true, sub := [] }] }

/-- A directory holding a package.json at the root. -/
def nodeDir : Dir :=
  { dirName := "webapp"
    isDirectory := true
    readable := true
    entries :=
      [{ name := "package.json", isDir := false, readable := true, sub := [] }] }

/-! ## C9 - context extractor (context-extractor.ts, extractMainFiles) -/

/-- A candidate file for context extraction: its stat size in bytes, its
content as the token sequence the tokenizer encodes it to (tokens carried
as strings; decoding a token slice concatenates it back), and whether
fs.readFile succeeds. -/
structure SrcFile where
  path : String
  size : Nat
  content : List String
  readable : Bool
  deriving Repr, DecidableEq

/-- A FileContent record pushed into mainFiles; the language field derived
from the extension does not matter to any claim and is elided. -/
structure ExtractedFile where
  path : String
  content : List String
  size : Nat
  deriving Repr, DecidableEq

/-- The sentinel truncateToTokens appends. -/
def truncatedSentinel : String := "\n\n[... truncated ...]"

/-- truncateToTokens (context-extractor.ts lines 338-346) on the token
model: unchanged when it fits, else the first maxTokens tokens with the
sentinel appended.  The argument is an Int because the source computes it
as a difference; every reachable call passes a positive value. -/
def truncateToTokens (text : List String) (maxTokens : Int) : List String :=
  if (text.length : Int) ≤ maxTokens then text
  else text.take maxTokens.toNat ++ [truncatedSentinel]

/-- The admission loop of extractMainFiles (lines 242-289), over the
already-prioritized file list.  remainingTokens is maxTokens minus the
tokens already used by README and manifest and may be negative, hence Int;
currentTokens starts at zero.  The 90 percent guard
currentTokens at least remainingTokens times 0.9 is the exact comparison
10 times currentTokens at least 9 times remainingTokens.  Files over
100 KB are skipped, unreadable files are skipped, a file that would
overflow the remaining budget is truncated, pushed and the loop breaks
(the pushed truncated text always ends with the sentinel and is never
empty, so the source's emptiness test always passes). -/
def extractMainFilesGo (remainingTokens : Int) :
    List SrcFile → Nat → List ExtractedFile
  | [], _ => []
  | f :: rest, currentTokens =>
      if (10 * currentTokens : Int) ≥ 9 * remainingTokens then []
      else if f.size > 100 * 1024 then
        extractMainFilesGo remainingTokens rest currentTokens
      else if f.readable = false then
        extractMainFilesGo remainingTokens rest currentTokens
      else
        if (currentTokens : Int) + f.content.length > remainingTokens then
          [{ path := f.path,
             content := truncateToTokens f.content (remainingTokens - currentTokens),
             size := f.size }]
        else
          { path := f.path, content := f.content, size := f.size } ::
            extractMainFilesGo remainingTokens rest (currentTokens + f.content.length)

/-- extractMainFiles entry: the source first sorts the candidates with
prioritizeFiles and then runs the admission loop; the properties claimed
are order-independent, so they are stated over the loop on the
post-priority list. -/
def extractMainFiles (maxTokens tokensAlreadyUsed : Nat)
    (sortedFiles : List SrcFile) : List ExtractedFile :=
  extractMainFilesGo ((maxTokens : Int) - (tokensAlreadyUsed : Int)) sortedFiles 0

/-! ## C7 - debouncer (debounce.ts, Debouncer) -/

/-- DebouncedEvent: the stored payload together with the key and the time
the storing call was made. -/
structure DebEvent (α : Type) where
  key : String
  data : α
  timestamp : Nat
  deriving Repr, DecidableEq

/-- The debouncer state: the timers map (key to scheduled fire time), the
pendingEvents map (key to latest stored event) and the trace of fired
callbacks as pairs of fire time and delivered event, in delivery order. -/
structure DebState (α : Type) where
  timers : List (String × Nat)
  pending : List (String × DebEvent α)
  fired : List (Nat × DebEvent α)
  deriving Repr, DecidableEq

/-- Map removal on an association list: drops every binding for the key. -/
def alistRemove : List (String × β) → String → List (String × β)
  | [], _ => []
  | p :: rest, k =>
      if p.1 = k then alistRemove rest k else p :: alistRemove rest k

/-- Map update on an association list: replaces the binding for the key
(order of distinct keys is irrelevant to the claims; the new binding goes
to the front). -/
def alistSet (l : List (String × β)) (k : String) (v : β) : List (String × β) :=
  (k, v) :: alistRemove l k

/-- Map lookup on an association list. -/
def alistFind : List (String × β) → String → Option β
  | [], _ => none
  | p :: rest, k => if p.1 = k then some p.2 else alistFind rest k

/-- Debouncer.debounce (debounce.ts lines 30-55) at clock value now:
clearTimeout of the existing timer for the key plus setTimeout of a new one
amounts to replacing the timers binding with now + delay, and the event map
stores the latest payload with its timestamp. -/
def debounceCall (delay : Nat) (st : DebState α) (now : Nat) (k : String)
    (d : α) : DebState α :=
  { timers := alistSet st.timers k (now + delay)
    pending := alistSet st.pending k { key := k, data := d, timestamp := now }
    fired := st.fired }

/-- The timer callback (lines 45-52) for one due timer: deliver the pending
event for the key, then delete it from both maps.  When no pending event
exists (unreachable while the two maps stay in sync) only the timer is
dropped. -/
def fireOne (st : DebState α) (kt : String × Nat) : DebState α :=
  match alistFind st.pending kt.1 with
  | some ev =>
      { timers := alistRemove st.timers kt.1
        pending := alistRemove st.pending kt.1
        fired := st.fired ++ [(kt.2, ev)] }
  | none => { st with timers := alistRemove st.timers kt.1 }

/-- Stable ascending insertion by scheduled fire time, used to run due
timer callbacks in the order the event loop would. -/
def insertByTimeAsc (x : String × Nat) :
    List (String × Nat) → List (String × Nat)
  | [] => [x]
  | y :: ys => if x.2 < y.2 then x :: y :: ys else y :: insertByTimeAsc x ys

def sortByTimeAsc : List (String × Nat) → List (String × Nat)
  | [] => []
  | x :: xs => insertByTimeAsc x (sortByTimeAsc xs)

/-- Fire every timer due at or before clock value t, in expiry order: the
event loop runs each setTimeout callback at its scheduled time, so all
timers scheduled at or before the instant the next external call happens
run first. -/
def fireDue (st : DebState α) (t : Nat) : DebState α :=
  (sortByTimeAsc (st.timers.filter (fun kt => kt.2 ≤ t))).foldl fireOne st

/-- One external debounce call at time c.1 for key c.2.1 with payload
c.2.2: the event loop first runs every callback that was due, then the
call body executes. -/
def debounceStep (delay : Nat) (st : DebState α) (c : Nat × String × α) :
    DebState α :=
  debounceCall delay (fireDue st c.1) c.1 c.2.1 c.2.2

/-- A whole run: the calls in time order (times must be nondecreasing),
then every still-pending timer eventually fires at its scheduled time. -/
def debouncerRun (delay : Nat) (calls : List (Nat × String × α)) : DebState α :=
  let st := calls.foldl (debounceStep delay) { timers := [], pending := [], fired := [] }
  (sortByTimeAsc st.timers).foldl fireOne st

/-- The calls for one key that happen strictly before time t, in order. -/
def callsBefore (calls : List (Nat × String × α)) (k : String) (t : Nat) :
    List (Nat × String × α) :=
  calls.filter (fun c => c.2.1 = k ∧ c.1 < t)

/-- The run invariant of the debouncer state after processing the call
prefix P, with B the time of the last processed call: timers have distinct
keys, every timer is scheduled strictly after B and is in sync with a
pending event that stores the latest call for its key; fired events
happened at or before B at their event's timestamp plus delay, carry the
payload of the latest call strictly before the fire time, are at least
delay apart per key, and precede any live timer of their key by at least
delay; the processed calls are time-sorted and at most B. -/
structure DebInv (delay B : Nat) (P : List (Nat × String × α))
    (st : DebState α) : Prop where
  keysNodup : (st.timers.map Prod.fst).Nodup
  timersGtB : ∀ p ∈ st.timers, B < p.2
  sync : ∀ p ∈ st.timers, ∃ ev, alistFind st.pending p.1 = some ev ∧
      ev.key = p.1 ∧ p.2 = ev.timestamp + delay ∧ ev.timestamp ≤ B ∧
      (P.filter (fun c => c.2.1 = p.1)).getLast? =
        some (ev.timestamp, p.1, ev.data)
  firedLeB : ∀ x ∈ st.fired, x.1 ≤ B
  firedProp : ∀ x ∈ st.fired, x.1 = x.2.timestamp + delay ∧
      (callsBefore P x.2.key x.1).getLast? =
        some (x.2.timestamp, x.2.key, x.2.data)
  firedGap : List.Pairwise (fun a b => a.2.key = b.2.key → a.1 + delay ≤ b.1)
      st.fired
  timerAfterFired : ∀ p ∈ st.timers, ∀ x ∈ st.fired,
      x.2.key = p.1 → x.1 + delay ≤ p.2
  callsLeB : ∀ c ∈ P, c.1 ≤ B
  callsSorted : List.Pairwise (fun a b => a.1 ≤ b.1) P

/-- A concrete call schedule: three calls for key "a" at times 0, 1, 5 with
payloads 1, 2, 3 and debounce delay 2.  The calls at 0 and 1 coalesce (the
timer set at 0 for time 2 is reset at 1 to time 3); the timer fires at 3
delivering payload 2; the call at 5 schedules a fire at 7 delivering 3. -/
def callsW : List (Nat × String × Nat) :=
  [(0, "a", 1), (1, "a", 2), (5, "a", 3)]

/-! # Theorems -/

/-! ## C5 -/

/-- C5 counterexample: the queue is not created with attempts 1; the shipped
default is attempts 3, so the no-automatic-retry half of the claim is false
of the code. -/
theorem C5_counterexample :
    analysisQueueJobOptions.attempts = 3 ∧
      ¬ analysisQueueJobOptions.attempts = 1 :=
  ⟨rfl, by decide⟩

/-- C5 amended: the analysis queue is created with a default retry policy
of three attempts per job with exponential backoff from a 2000 ms base, and
its retention keeps the most recent 100 completed jobs for up to 24 hours
(86400 s) and the most recent 500 failed jobs with no age bound. -/
theorem C5_amended_defaults :
    analysisQueueJobOptions =
      { attempts := 3
        backoff := { kind := "exponential", delay := 2000 }
        removeOnComplete := { count := 100, age := some 86400 }
        removeOnFail := { count := 500, age := none } } :=
  rfl

/-! ## C3 -/

/-- C3 counterexample: an error the spec classifies as non-retryable (no
transport status, message "boom") is not propagated immediately: with
maxRetries 3 the executor invokes the wrapped call a second time and
returns its success. -/
theorem C3_counterexample :
    specRetryable { status := none, message := "boom" } = false ∧
      rateLimiterExecute c3CallOutcomes 3 = (Except.ok 42, 2) :=
  ⟨rfl, rfl⟩

/-- Helper: when every attempt fails, the loop runs its full budget and
surfaces the error of the last attempt. -/
theorem executeLoop_all_errors (fn : Nat → Except JsError α)
    (es : Nat → JsError) (h : ∀ i, fn i = Except.error (es i)) :
    ∀ rem attempt last,
      executeLoop fn (rem + 1) attempt last =
        (Except.error (es (attempt + rem)), attempt + (rem + 1))
  | 0, attempt, last => by
      simp [executeLoop, h attempt]
  | rem + 1, attempt, last => by
      have ih := executeLoop_all_errors fn es h rem (attempt + 1)
        (some (es attempt))
      simp only [executeLoop, h attempt] at ih ⊢
      rw [ih]
      have h1 : attempt + 1 + rem = attempt + (rem + 1) := by omega
      have h2 : attempt + 1 + (rem + 1) = attempt + (rem + 1 + 1) := by omega
      rw [h1, h2]

/-- C3 amended: RateLimiter.execute retries every error while attempts
remain, with no retryability test: whatever the first error is, a second
attempt is made and its success is returned; and when every attempt fails,
the call is retried until the attempt budget is exhausted and the last
error is surfaced.  (The classification isRateLimitError - status 429 or a
message containing "rate limit" or "429" - only selects the tripled backoff
base in calculateBackoff.) -/
theorem C3_amended_retry_all :
    (∀ (fn : Nat → Except JsError Nat) (m v : Nat) (e : JsError),
        fn 0 = Except.error e → fn 1 = Except.ok v → 2 ≤ m →
        rateLimiterExecute fn m = (Except.ok v, 2)) ∧
    (∀ (fn : Nat → Except JsError Nat) (es : Nat → JsError) (m : Nat),
        1 ≤ m → (∀ i, fn i = Except.error (es i)) →
        rateLimiterExecute fn m = (Except.error (es (m - 1)), m)) := by
  constructor
  · intro fn m v e h0 h1 hm
    obtain ⟨k, rfl⟩ : ∃ k, m = k + 2 := ⟨m - 2, by omega⟩
    simp [rateLimiterExecute, executeLoop, h0, h1]
  · intro fn es m hm hall
    obtain ⟨k, rfl⟩ : ∃ k, m = k + 1 := ⟨m - 1, by omega⟩
    have h := executeLoop_all_errors fn es hall k 0 none
    simp only [Nat.zero_add] at h
    exact h

/-- Witness for C3 amended: both halves instantiated at concrete calls. -/
theorem C3_amended_retry_all_witness :
    rateLimiterExecute c3CallOutcomes 3 = (Except.ok 42, 2) ∧
      rateLimiterExecute
          (fun _ => (Except.error { status := none, message := "x" } : Except JsError Nat)) 2 =
        (Except.error { status := none, message := "x" }, 2) := by
  constructor
  · exact C3_amended_retry_all.1 c3CallOutcomes 3 42
      { status := none, message := "boom" } rfl rfl (by omega)
  · exact C3_amended_retry_all.2
      (fun _ => (Except.error { status := none, message := "x" } : Except JsError Nat))
      (fun _ => { status := none, message := "x" }) 2 (by omega) (fun _ => rfl)

/-! ## C2 -/

/-- C2: saveToDatabase issues two separate implicit transactions, not one:
the analysis insert commits first, and a concurrent reader can observe the
intermediate state in which the new Analysis row exists while the project
status is still DISCOVERED.  (Because the insert precedes the status flip,
the stated reader-visible invariant - ANALYZED implies an Analysis row and
a set analyzedAt - is still never violated.) -/
theorem C2_not_single_transaction :
    (saveToDatabaseTxns sampleResult 5).length = 2 ∧
      ¬ (saveToDatabaseTxns sampleResult 5).length = 1 ∧
      dbStatesDuring db0 (saveToDatabaseTxns sampleResult 5) =
        [db0,
         { db0 with analyses := [analysisRowOf sampleResult] },
         { project := { db0.project with status := "ANALYZED", analyzedAt := some 5 }
           analyses := [analysisRowOf sampleResult] }] ∧
      ({ db0 with analyses := [analysisRowOf sampleResult] } : Db).project.status ≠
        "ANALYZED" := by
  refine ⟨rfl, by decide, rfl, by decide⟩

/-! ## C1 -/

/-- C1 counterexample: even on the fully successful fresh-analysis path the
bus trace ends with an analysis:progress event (the 100 percent completed
update) after the terminal analysis:completed event, so the claimed order
started, progress star, terminal is false of the code. -/
theorem C1_counterexample :
    (processJob freshEnv db0 7).1 =
      [BusEvent.started "p1",
       BusEvent.progress "p1" "queued" 0,
       BusEvent.progress "p1" "extracting" 10,
       BusEvent.progress "p1" "extracting" 20,
       BusEvent.progress "p1" "analyzing" 50,
       BusEvent.progress "p1" "caching" 80,
       BusEvent.progress "p1" "caching" 90,
       BusEvent.completed "p1",
       BusEvent.progress "p1" "completed" 100] ∧
      claimedEventOrder (processJob freshEnv db0 7).1 = false :=
  ⟨rfl, rfl⟩

/-- C1 amended: for every job run, the bus trace is an analysis:started
event first, then analysis:progress events, then the terminal
analysis:completed or analysis:failed event, then exactly one trailing
analysis:progress event (the completed 100 percent update on success, the
failed status update on failure); every progress event other than that
trailing one precedes the terminal event. -/
theorem C1_amended_event_order :
    ∀ (env : JobEnv) (db : Db) (now : Millis),
      actualEventOrder (processJob env db now).1 = true := by
  intro env db now
  obtain ⟨pid, fr, pOk, cached, eOk, fc, loc, ts, mOk, ar, sOk⟩ := env
  cases pOk <;> cases fr <;> cases cached <;> cases eOk <;> cases mOk <;>
    cases ar <;> cases sOk <;> rfl

/-! ## C4 -/

/-- C4 counterexample: a cache-hit replay of a result whose stored metadata
records a prompt-cache miss persists an Analysis row with cacheHit false,
not true: the processor stores the cached result unchanged and never forces
the flag. -/
theorem C4_counterexample :
    (processJob cacheHitEnv db0 7).1 =
      [BusEvent.started "p1",
       BusEvent.progress "p1" "queued" 0,
       BusEvent.progress "p1" "extracting" 10,
       BusEvent.completed "p1",
       BusEvent.progress "p1" "completed" 100] ∧
      (processJob cacheHitEnv db0 7).2.analyses = [analysisRowOf sampleResult] ∧
      (analysisRowOf sampleResult).cacheHit = false :=
  ⟨rfl, rfl, rfl⟩

/-- C4 amended: on a cache hit (forceRefresh false) the processor appends
exactly one new Analysis row, and that row carries the cacheHit flag stored
in the cached result metadata - the prompt-cache indicator recorded when
the result was first computed - not necessarily true. -/
theorem C4_amended_cacheHit_flag :
    ∀ (env : JobEnv) (db : Db) (now : Millis) (r : AnalysisResult),
      env.forceRefresh = false → env.cached = some r → env.pathOk = true →
      env.saveOk = true →
      (processJob env db now).2.analyses = db.analyses ++ [analysisRowOf r] ∧
        (analysisRowOf r).cacheHit = r.metadata.cacheHit := by
  intro env db now r hfr hc hp hs
  refine ⟨?_, rfl⟩
  simp [processJob, hfr, hc, hp, hs, saveToDatabase, saveToDatabaseTxns,
    applyTxn, applyWrite]

/-- Witness for C4 amended at the concrete cache-hit run. -/
theorem C4_amended_cacheHit_flag_witness :
    (processJob cacheHitEnv db0 7).2.analyses =
        db0.analyses ++ [analysisRowOf sampleResult] ∧
      (analysisRowOf sampleResult).cacheHit = sampleResult.metadata.cacheHit :=
  C4_amended_cacheHit_flag cacheHitEnv db0 7 sampleResult rfl rfl rfl rfl

/-! ## C10 -/

/-- C10: on a cache hit the project row's fileCount, linesOfCode and size
are left unchanged; the run only appends one Analysis row and sets the
project status to ANALYZED with analyzedAt set. -/
theorem C10_cache_hit_frame :
    ∀ (env : JobEnv) (db : Db) (now : Millis) (r : AnalysisResult),
      env.forceRefresh = false → env.cached = some r → env.pathOk = true →
      env.saveOk = true →
      (processJob env db now).2.project.fileCount = db.project.fileCount ∧
        (processJob env db now).2.project.linesOfCode = db.project.linesOfCode ∧
        (processJob env db now).2.project.size = db.project.size ∧
        (processJob env db now).2.analyses = db.analyses ++ [analysisRowOf r] ∧
        (processJob env db now).2.project.status = "ANALYZED" ∧
        (processJob env db now).2.project.analyzedAt = some now := by
  intro env db now r hfr hc hp hs
  simp [processJob, hfr, hc, hp, hs, saveToDatabase, saveToDatabaseTxns,
    applyTxn, applyWrite]

/-! ## C8 -/

/-- Helper: setting a key makes it retrievable. -/
theorem storeGet_storeSet_self (st : RedisStore) (k : String) (v : CachedAnalysis) :
    storeGet (storeSet st k v) k = some v := by
  simp [storeGet, storeSet]

/-- Helper: find after filtering out a key misses that key. -/
theorem find_after_filter_ne (st : RedisStore) (k : String) :
    (st.filter (fun p => !(p.1 == k))).find? (fun p => p.1 == k) = none := by
  induction st with
  | nil => rfl
  | cons p rest ih =>
      by_cases hpk : p.1 == k
      · simp [List.filter_cons, hpk, ih]
      · simp [List.filter_cons, hpk, List.find?_cons, ih]

/-- Helper: deleting a key makes it unretrievable. -/
theorem storeGet_storeDel_self (st : RedisStore) (k : String) :
    storeGet (storeDel st k) k = none := by
  simp [storeGet, storeDel, find_after_filter_ne]

/-- C8 counterexample: set at time 0 with a 86400 s TTL puts expiresAt at
86400000; a get at exactly now = 86400000 returns the entry (the code only
treats expiresAt strictly less than now as expired), so the returned
entry's expiresAt is not strictly in the future, and under the claim's own
reading of expired the present-but-expired entry is returned rather than
deleted. -/
theorem C8_counterexample :
    (cacheGet (cacheSet [] 0 86400 "p" 5 sampleResult) 86400000 "p" 5).1.isSome = true ∧
      ((cacheGet (cacheSet [] 0 86400 "p" 5 sampleResult) 86400000 "p" 5).1.map
          (fun e => e.expiresAt)) = some 86400000 ∧
      ¬ (86400000 < 86400000) :=
  ⟨rfl, rfl, by omega⟩

/-- C8 amended: after set(path, mtime, result) at nowSet, a get(path, mtime)
at any nowGet with nowGet at most expiresAt = nowSet + ttl times 1000
returns the stored entry unchanged - result byte-identical, lastModified
equal to the mtime supplied to get, createdAt = nowSet and expiresAt at
least nowGet (not necessarily strictly greater) - and leaves the store
untouched; a get with nowGet strictly past expiresAt returns none and
deletes the entry from the store. -/
theorem C8_amended_roundtrip :
    ∀ (st : RedisStore) (path : String) (mtime : Millis) (r : AnalysisResult)
      (ttl nowSet nowGet : Nat),
      (nowGet ≤ nowSet + ttl * 1000 →
        cacheGet (cacheSet st nowSet ttl path mtime r) nowGet path mtime =
          (some { result := r, projectHash := path, lastModified := mtime,
                  createdAt := nowSet, expiresAt := nowSet + ttl * 1000 },
           cacheSet st nowSet ttl path mtime r)) ∧
      (nowSet + ttl * 1000 < nowGet →
        (cacheGet (cacheSet st nowSet ttl path mtime r) nowGet path mtime).1 = none ∧
          storeGet (cacheGet (cacheSet st nowSet ttl path mtime r) nowGet path mtime).2
            (generateCacheKey path mtime) = none) := by
  intro st path mtime r ttl nowSet nowGet
  constructor
  · intro hle
    simp [cacheGet, cacheSet, storeGet_storeSet_self, Nat.not_lt.mpr hle]
  · intro hlt
    refine ⟨?_, ?_⟩
    · simp [cacheGet, cacheSet, storeGet_storeSet_self, hlt]
    · simp [cacheGet, cacheSet, storeGet_storeSet_self, hlt, storeGet_storeDel_self]

/-- Witness for C8 amended: a get within the TTL returns the entry, a get
past the TTL returns none. -/
theorem C8_amended_roundtrip_witness :
    (cacheGet (cacheSet [] 0 86400 "p" 5 sampleResult) 1000 "p" 5).1 =
      some { result := sampleResult, projectHash := "p", lastModified := 5,
             createdAt := 0, expiresAt := 86400000 } ∧
      (cacheGet (cacheSet [] 0 86400 "p" 5 sampleResult) 86400001 "p" 5).1 = none := by
  constructor
  · have h := (C8_amended_roundtrip [] "p" 5 sampleResult 86400 0 1000).1 (by omega)
    rw [h]
  · exact ((C8_amended_roundtrip [] "p" 5 sampleResult 86400 0 86400001).2 (by omega)).1

/-- Witness for C10 at the concrete cache-hit run. -/
theorem C10_cache_hit_frame_witness :
    (processJob cacheHitEnv db0 7).2.project.fileCount = db0.project.fileCount ∧
      (processJob cacheHitEnv db0 7).2.project.linesOfCode = db0.project.linesOfCode ∧
      (processJob cacheHitEnv db0 7).2.project.size = db0.project.size ∧
      (processJob cacheHitEnv db0 7).2.analyses =
        db0.analyses ++ [analysisRowOf sampleResult] ∧
      (processJob cacheHitEnv db0 7).2.project.status = "ANALYZED" ∧
      (processJob cacheHitEnv db0 7).2.project.analyzedAt = some 7 :=
  C10_cache_hit_frame cacheHitEnv db0 7 sampleResult rfl rfl rfl rfl

/-! ## C6 -/

/-- Helper: membership through the stable descending insertion. -/
theorem mem_insertByConfDesc (x y : Detection) :
    ∀ l, x ∈ insertByConfDesc y l ↔ x = y ∨ x ∈ l
  | [] => by simp [insertByConfDesc]
  | z :: zs => by
      by_cases h : z.confidence ≤ y.confidence
      · simp [insertByConfDesc, h]
      · simp only [insertByConfDesc, if_neg h, List.mem_cons,
          mem_insertByConfDesc x y zs]
        tauto

/-- Helper: sorting permutes membership. -/
theorem mem_sortByConfDesc (x : Detection) :
    ∀ l, x ∈ sortByConfDesc l ↔ x ∈ l
  | [] => Iff.rfl
  | z :: zs => by
      simp [sortByConfDesc, mem_insertByConfDesc, mem_sortByConfDesc x zs]

/-- Helper: the insertion never produces the empty list. -/
theorem insertByConfDesc_ne_nil (y : Detection) :
    ∀ l, insertByConfDesc y l ≠ []
  | [] => by simp [insertByConfDesc]
  | z :: zs => by
      by_cases h : z.confidence ≤ y.confidence <;> simp [insertByConfDesc, h]

/-- Helper: the head confidence after insertion is the maximum. -/
theorem headConf_insertByConfDesc (y : Detection) :
    ∀ l, headConf (insertByConfDesc y l) = max y.confidence (headConf l)
  | [] => by simp [insertByConfDesc, headConf]
  | z :: zs => by
      by_cases h : z.confidence ≤ y.confidence
      · simp [insertByConfDesc, h, headConf, Nat.max_eq_left h]
      · have h2 : y.confidence ≤ z.confidence := Nat.le_of_lt (Nat.lt_of_not_le h)
        simp [insertByConfDesc, h, headConf, Nat.max_eq_right h2]

/-- Helper: every member's confidence is bounded by the sorted head. -/
theorem le_headConf_sortByConfDesc (x : Detection) :
    ∀ l, x ∈ l → x.confidence ≤ headConf (sortByConfDesc l)
  | z :: zs, hx => by
      rcases List.mem_cons.mp hx with h | h
      · subst h
        rw [sortByConfDesc, headConf_insertByConfDesc]
        exact Nat.le_max_left _ _
      · rw [sortByConfDesc, headConf_insertByConfDesc]
        exact Nat.le_trans (le_headConf_sortByConfDesc x zs h) (Nat.le_max_right _ _)

/-- Helper: sorting a nonempty list is nonempty. -/
theorem sortByConfDesc_ne_nil : ∀ (l : List Detection), l ≠ [] → sortByConfDesc l ≠ []
  | [], h => absurd rfl h
  | z :: zs, _ => by
      rw [sortByConfDesc]
      exact insertByConfDesc_ne_nil z (sortByConfDesc zs)

/-- Helper: pickBest of a nonempty list is one of its members. -/
theorem pickBest_mem (l : List Detection) (hl : l ≠ []) : pickBest l ∈ l := by
  cases hs : sortByConfDesc l with
  | nil => exact absurd hs (sortByConfDesc_ne_nil l hl)
  | cons b t =>
      have hb : b ∈ sortByConfDesc l := by rw [hs]; exact List.mem_cons_self b t
      have hbl := (mem_sortByConfDesc b l).mp hb
      simpa [pickBest, hs] using hbl

/-- Helper: pickBest attains the maximal confidence. -/
theorem le_conf_pickBest (x : Detection) (l : List Detection) (hx : x ∈ l) :
    x.confidence ≤ (pickBest l).confidence := by
  cases hs : sortByConfDesc l with
  | nil =>
      exact absurd hs (sortByConfDesc_ne_nil l (by rintro rfl; simp at hx))
  | cons b t =>
      have h := le_headConf_sortByConfDesc x l hx
      rw [hs] at h
      simpa [pickBest, hs, headConf] using h

/-- Helper: every root detection has confidence at most 95. -/
theorem rootDetections_conf_le (files : List String) :
    ∀ x ∈ rootDetections files, x.confidence ≤ 95 := by
  intro x hx
  simp only [rootDetections, List.mem_append] at hx
  rcases hx with (((((((h | h) | h) | h) | h) | h) | h) | h) <;>
    · split at h <;> simp_all <;> subst h <;> first | omega | (split <;> omega)

/-- Helper: a strong root marker puts a detection of confidence at least 90
into the root detections. -/
theorem rootDetections_strong_mem (files : List String)
    (hm : files.contains "package.json" = true ∨
          files.contains "Cargo.toml" = true ∨
          files.contains "go.mod" = true ∨
          javaMarkerNames.filter (fun m => files.contains m) ≠ [] ∨
          files.contains "composer.json" = true ∨
          files.contains "Gemfile" = true ∨
          files.contains "pubspec.yaml" = true ∨
          2 ≤ (pythonMarkerNames.filter (fun m => files.contains m)).length) :
    ∃ x ∈ rootDetections files, 90 ≤ x.confidence := by
  rcases hm with h | h | h | h | h | h | h | h
  · refine ⟨{ projectType := "nodejs", confidence := 95 }, ?_, by decide⟩
    have h' : "package.json" ∈ files := by simpa using h
    simp [rootDetections, h']
  · refine ⟨{ projectType := "rust", confidence := 95 }, ?_, by decide⟩
    have h' : "Cargo.toml" ∈ files := by simpa using h
    simp [rootDetections, h']
  · refine ⟨{ projectType := "go", confidence := 95 }, ?_, by decide⟩
    have h' : "go.mod" ∈ files := by simpa using h
    simp [rootDetections, h']
  · refine ⟨{ projectType := "java", confidence := 90 }, ?_, by decide⟩
    have hl := List.length_pos.mpr h
    simp [rootDetections]
    simpa using hl
  · refine ⟨{ projectType := "php", confidence := 90 }, ?_, by decide⟩
    have h' : "composer.json" ∈ files := by simpa using h
    simp [rootDetections, h']
  · refine ⟨{ projectType := "ruby", confidence := 90 }, ?_, by decide⟩
    have h' : "Gemfile" ∈ files := by simpa using h
    simp [rootDetections, h']
  · refine ⟨{ projectType := "nodejs", confidence := 95 }, ?_, by decide⟩
    have h' : "pubspec.yaml" ∈ files := by simpa using h
    simp [rootDetections, h']
  · refine ⟨{ projectType := "python", confidence := 90 }, ?_, by decide⟩
    have h' : 2 ≤ (pythonMarkerNames.filter (fun m => decide (m ∈ files))).length := by
      simpa using h
    simp [rootDetections]
    exact ⟨by omega, by rw [if_pos h']⟩

/-- C6 counterexample: a directory whose only Python marker is
requirements.txt validates with confidence 0.70, outside the claimed
interval 0.90 to 0.95; and a directory whose only marker is a csproj file -
listed by the spec as a strong marker - is rejected outright, because no
branch of detectProjectType checks the csharp markers. -/
theorem C6_counterexample :
    (validateProject pyOnlyDir).isValid = true ∧
      (validateProject pyOnlyDir).confidence = 70 ∧
      ¬ (90 ≤ (validateProject pyOnlyDir).confidence) ∧
      (validateProject csprojOnlyDir).isValid = false := by
  refine ⟨rfl, rfl, by decide, rfl⟩

/-- C6 amended: for a readable, non-hidden, non-system, nonempty directory,
any root marker the code actually checks (package.json, Cargo.toml, go.mod,
a java marker, composer.json, Gemfile, pubspec.yaml, or at least two
Python markers) yields valid = true with confidence in the interval
0.90 to 0.95; a directory whose only root marker is a single Python marker
(requirements.txt, pyproject.toml, setup.py, Pipfile or poetry.lock)
yields valid = true with confidence 0.70; the csharp markers are never
detected at the root; and for every directory a detection confidence below
0.5 yields valid = false. -/
theorem C6_amended_validator :
    (∀ (d : Dir),
        d.readable = true → d.isDirectory = true →
        d.dirName ∉ systemDirectories →
        strStartsWith d.dirName "." = false →
        d.entries ≠ [] →
        ((d.entries.map (fun e => e.name)).contains "package.json" = true ∨
         (d.entries.map (fun e => e.name)).contains "Cargo.toml" = true ∨
         (d.entries.map (fun e => e.name)).contains "go.mod" = true ∨
         javaMarkerNames.filter
           (fun m => (d.entries.map (fun e => e.name)).contains m) ≠ [] ∨
         (d.entries.map (fun e => e.name)).contains "composer.json" = true ∨
         (d.entries.map (fun e => e.name)).contains "Gemfile" = true ∨
         (d.entries.map (fun e => e.name)).contains "pubspec.yaml" = true ∨
         2 ≤ (pythonMarkerNames.filter
           (fun m => (d.entries.map (fun e => e.name)).contains m)).length) →
        (validateProject d).isValid = true ∧
          90 ≤ (validateProject d).confidence ∧
          (validateProject d).confidence ≤ 95) ∧
    (∀ (d : Dir) (files : List String),
        d.entries.map (fun e => e.name) = files →
        d.readable = true → d.isDirectory = true →
        d.dirName ∉ systemDirectories →
        strStartsWith d.dirName "." = false →
        d.entries ≠ [] →
        "package.json" ∉ files →
        "Cargo.toml" ∉ files →
        "go.mod" ∉ files →
        "pom.xml" ∉ files →
        "build.gradle" ∉ files →
        "build.gradle.kts" ∉ files →
        "gradlew" ∉ files →
        "composer.json" ∉ files →
        "Gemfile" ∉ files →
        "pubspec.yaml" ∉ files →
        (pythonMarkerNames.filter (fun m => files.contains m)).length = 1 →
        (validateProject d).isValid = true ∧
          (validateProject d).confidence = 70) ∧
    (∀ (d : Dir), (detectProjectType d).confidence < 50 →
        (validateProject d).isValid = false) := by
  refine ⟨?_, ?_, ?_⟩
  · intro d hr hdir hsys hdot hne hm
    obtain ⟨x, hxmem, hx90⟩ :=
      rootDetections_strong_mem (d.entries.map (fun e => e.name)) hm
    have hbase : rootDetections (d.entries.map (fun e => e.name)) ≠ [] := by
      intro h0
      rw [h0] at hxmem
      exact absurd hxmem (List.not_mem_nil x)
    have hdet : detectProjectType d =
        pickBest (rootDetections (d.entries.map (fun e => e.name))) := by
      cases hb : rootDetections (d.entries.map (fun e => e.name)) with
      | nil => exact absurd hb hbase
      | cons a t => simp [detectProjectType, hb]
    have hub : (detectProjectType d).confidence ≤ 95 := by
      rw [hdet]
      exact rootDetections_conf_le _ _ (pickBest_mem _ hbase)
    have hlb : 90 ≤ (detectProjectType d).confidence := by
      rw [hdet]
      exact Nat.le_trans hx90 (le_conf_pickBest x _ hxmem)
    have hie : d.entries.isEmpty = false := by
      cases hE : d.entries with
      | nil => exact absurd hE hne
      | cons a t => rfl
    have hnotlt : ¬ ((detectProjectType d).confidence < 50) := by omega
    refine ⟨?_, ?_, ?_⟩ <;>
      simp [validateProject, hr, hdir, hsys, hdot, hie, hnotlt, hlb, hub]
  · intro d files hF hr hdir hsys hdot hne hnoPkg hnoCargo hnoGo hnoPom
      hnoGradle hnoGradleKts hnoGradlew hnoComposer hnoGem hnoPub hpy
    have hpy' : (pythonMarkerNames.filter (fun m => decide (m ∈ files))).length = 1 := by
      simpa using hpy
    have hroot : rootDetections files = [{ projectType := "python", confidence := 70 }] := by
      simp [rootDetections, javaMarkerNames, hnoPkg, hnoCargo, hnoGo, hnoPom,
        hnoGradle, hnoGradleKts, hnoGradlew, hnoComposer, hnoGem, hnoPub, hpy']
    have hdetv : detectProjectType d = { projectType := "python", confidence := 70 } := by
      simp [detectProjectType, hF, hroot, pickBest, sortByConfDesc, insertByConfDesc]
    have hie : d.entries.isEmpty = false := by
      cases hE : d.entries with
      | nil => exact absurd hE hne
      | cons a t => rfl
    refine ⟨?_, ?_⟩ <;>
      simp [validateProject, hr, hdir, hsys, hdot, hie, hdetv]
  · intro d h
    simp only [validateProject]
    split_ifs with h1 h2 h3 h4 <;> rfl

/-- Witness for C6 amended: a package.json directory validates in the
claimed band, the lone-python directory validates at 0.70, and the csproj
directory (detection confidence 0) is rejected. -/
theorem C6_amended_validator_witness :
    ((validateProject nodeDir).isValid = true ∧
      90 ≤ (validateProject nodeDir).confidence ∧
      (validateProject nodeDir).confidence ≤ 95) ∧
    ((validateProject pyOnlyDir).isValid = true ∧
      (validateProject pyOnlyDir).confidence = 70) ∧
    (validateProject csprojOnlyDir).isValid = false := by
  refine ⟨?_, ?_, ?_⟩
  · exact C6_amended_validator.1 nodeDir rfl rfl (by decide) rfl (by decide)
      (Or.inl (by decide))
  · exact C6_amended_validator.2.1 pyOnlyDir ["requirements.txt", "main.py"] rfl
      rfl rfl (by decide) rfl (by decide)
      (by decide) (by decide) (by decide) (by decide) (by decide) (by decide)
      (by decide) (by decide) (by decide) (by decide) (by decide)
  · exact C6_amended_validator.2.2 csprojOnlyDir (by decide)

/-! ## C9 -/

/-- C9: the context extractor admission loop (over the prioritized list)
(a) admits only files of at most 100 KB - any file strictly over 102400
bytes is skipped; (b) a file of exactly 102400 bytes is admissible;
(c) admission stops as soon as the tokens consumed reach 90 percent of the
remaining budget; (d) a file that would overflow the remaining budget is
not dropped: it is admitted truncated to the remaining budget with the
truncation sentinel appended, and it is the last admitted file. -/
theorem C9_extractMainFiles_budget :
    (∀ (r : Int) (files : List SrcFile) (c : Nat),
        ∀ ef ∈ extractMainFilesGo r files c, ef.size ≤ 102400) ∧
    (extractMainFilesGo 1000
        [{ path := "a", size := 102400, content := ["x"], readable := true }] 0 =
      [{ path := "a", content := ["x"], size := 102400 }]) ∧
    (∀ (r : Int) (files : List SrcFile) (c : Nat),
        (10 * c : Int) ≥ 9 * r → extractMainFilesGo r files c = []) ∧
    (∀ (r : Int) (f : SrcFile) (rest : List SrcFile) (c : Nat),
        (10 * c : Int) < 9 * r → f.size ≤ 102400 → f.readable = true →
        (c : Int) + f.content.length > r →
        extractMainFilesGo r (f :: rest) c =
          [{ path := f.path,
             content := f.content.take (r - c).toNat ++ [truncatedSentinel],
             size := f.size }]) := by
  refine ⟨?_, rfl, ?_, ?_⟩
  · intro r files
    induction files with
    | nil =>
        intro c ef h
        simp [extractMainFilesGo] at h
    | cons f rest ih =>
        intro c ef h
        rw [extractMainFilesGo] at h
        split_ifs at h with h90 hbig hunread hover
        · simp at h
        · exact ih c ef h
        · exact ih c ef h
        · simp only [List.mem_singleton] at h
          subst h
          show f.size ≤ 102400
          omega
        · rcases List.mem_cons.mp h with h | h
          · subst h
            show f.size ≤ 102400
            omega
          · exact ih (c + f.content.length) ef h
  · intro r files c h
    cases files with
    | nil => rfl
    | cons f rest =>
        rw [extractMainFilesGo, if_pos h]
  · intro r f rest c h90 hsize hread hover
    rw [extractMainFilesGo, if_neg (by omega), if_neg (by omega),
      if_neg (by simp [hread])]
    simp only [if_pos hover]
    rw [truncateToTokens, if_neg (by omega)]

/-- Witness for C9: the size bound applied to the member of a concrete run,
the stop guard at a consumed budget, and a concrete truncation. -/
theorem C9_extractMainFiles_budget_witness :
    ({ path := "a", content := ["x"], size := 102400 } : ExtractedFile).size ≤ 102400 ∧
      extractMainFilesGo 5
        [{ path := "b", size := 10, content := ["y"], readable := true }] 10 = [] ∧
      extractMainFilesGo 2
        [{ path := "c", size := 30, content := ["t1", "t2", "t3"], readable := true }] 0 =
        [{ path := "c", content := ["t1", "t2", truncatedSentinel], size := 30 }] := by
  refine ⟨?_, ?_, ?_⟩
  · exact C9_extractMainFiles_budget.1 1000
      [{ path := "a", size := 102400, content := ["x"], readable := true }] 0
      { path := "a", content := ["x"], size := 102400 }
      (by rw [C9_extractMainFiles_budget.2.1]; exact List.mem_singleton.mpr rfl)
  · exact C9_extractMainFiles_budget.2.2.1 5
      [{ path := "b", size := 10, content := ["y"], readable := true }] 10 (by decide)
  · have h := C9_extractMainFiles_budget.2.2.2 2
      { path := "c", size := 30, content := ["t1", "t2", "t3"], readable := true }
      [] 0 (by decide) (by decide) rfl (by decide)
    simpa using h

/-! ## C7 -/

/-- Helper: lookup after removing a key. -/
theorem alistFind_alistRemove (k j : String) :
    ∀ (l : List (String × β)),
      alistFind (alistRemove l k) j = if j = k then none else alistFind l j
  | [] => by
      by_cases hjk : j = k <;> simp [alistFind, alistRemove, hjk]
  | p :: rest => by
      have ih := alistFind_alistRemove (β := β) k j rest
      by_cases hpk : p.1 = k
      · rw [alistRemove, if_pos hpk, ih]
        by_cases hjk : j = k
        · rw [if_pos hjk, if_pos hjk]
        · have hpj : ¬ p.1 = j := fun h => hjk (h ▸ hpk)
          rw [if_neg hjk, if_neg hjk, alistFind, if_neg hpj]
      · rw [alistRemove, if_neg hpk]
        by_cases hpj : p.1 = j
        · have hjk : ¬ j = k := fun h => hpk (by rw [hpj, h])
          rw [if_neg hjk, alistFind, if_pos hpj, alistFind, if_pos hpj]
        · rw [alistFind, if_neg hpj, ih]
          by_cases hjk : j = k
          · rw [if_pos hjk, if_pos hjk]
          · rw [if_neg hjk, if_neg hjk, alistFind, if_neg hpj]

/-- Helper: lookup after setting a key. -/
theorem alistFind_alistSet (l : List (String × β)) (k j : String) (v : β) :
    alistFind (alistSet l k v) j = if j = k then some v else alistFind l j := by
  by_cases hjk : j = k
  · rw [if_pos hjk, alistSet, alistFind, if_pos hjk.symm]
  · have hkj : ¬ (k : String) = j := fun h => hjk h.symm
    rw [if_neg hjk, alistSet, alistFind, if_neg hkj, alistFind_alistRemove,
      if_neg hjk]

/-- Helper: a successful lookup is a member whose key matches. -/
theorem alistFind_mem (k : String) (v : β) :
    ∀ (l : List (String × β)), alistFind l k = some v → (k, v) ∈ l
  | [], h => by simp [alistFind] at h
  | p :: rest, h => by
      by_cases hpk : p.1 = k
      · rw [alistFind, if_pos hpk] at h
        obtain ⟨p1, p2⟩ := p
        simp only at hpk
        simp only [Option.some.injEq] at h
        subst hpk
        subst h
        exact List.mem_cons_self _ _
      · rw [alistFind, if_neg hpk] at h
        exact List.mem_cons_of_mem p (alistFind_mem k v rest h)

/-- Helper: with distinct keys a member is found by its key. -/
theorem alistFind_eq_of_mem (p : String × β) :
    ∀ (l : List (String × β)), (l.map Prod.fst).Nodup → p ∈ l →
      alistFind l p.1 = some p.2
  | [], _, hp => by simp at hp
  | q :: rest, hnd, hp => by
      rcases List.mem_cons.mp hp with h | h
      · subst h
        rw [alistFind, if_pos rfl]
      · have hq : ¬ q.1 = p.1 := by
          intro hc
          have hmem : p.1 ∈ rest.map Prod.fst := List.mem_map_of_mem Prod.fst h
          rw [← hc] at hmem
          exact (List.nodup_cons.mp (by simpa using hnd)).1 hmem
        rw [alistFind, if_neg hq]
        exact alistFind_eq_of_mem p rest
          (List.nodup_cons.mp (by simpa using hnd)).2 h

/-- Helper: with distinct keys, two members sharing a key are equal. -/
theorem alist_mem_unique (l : List (String × β))
    (hnd : (l.map Prod.fst).Nodup) (p q : String × β)
    (hp : p ∈ l) (hq : q ∈ l) (hk : p.1 = q.1) : p = q := by
  have h1 := alistFind_eq_of_mem p l hnd hp
  have h2 := alistFind_eq_of_mem q l hnd hq
  rw [hk, h2] at h1
  obtain ⟨p1, p2⟩ := p
  obtain ⟨q1, q2⟩ := q
  simp only at hk
  simp only [Option.some.injEq] at h1
  simp [hk, h1]

/-- Helper: removal yields a sublist. -/
theorem alistRemove_sublist (k : String) :
    ∀ (l : List (String × β)), List.Sublist (alistRemove l k) l
  | [] => List.Sublist.refl _
  | p :: rest => by
      by_cases hpk : p.1 = k
      · rw [alistRemove, if_pos hpk]
        exact (alistRemove_sublist k rest).cons p
      · rw [alistRemove, if_neg hpk]
        exact (alistRemove_sublist k rest).cons₂ p

/-- Helper: members surviving a removal have a different key. -/
theorem alistRemove_key_ne (k : String) :
    ∀ (l : List (String × β)), ∀ p ∈ alistRemove l k, ¬ p.1 = k
  | [], p, hp => by simp [alistRemove] at hp
  | q :: rest, p, hp => by
      by_cases hqk : q.1 = k
      · rw [alistRemove, if_pos hqk] at hp
        exact alistRemove_key_ne k rest p hp
      · rw [alistRemove, if_neg hqk] at hp
        rcases List.mem_cons.mp hp with h | h
        · subst h
          exact hqk
        · exact alistRemove_key_ne k rest p h

/-- Helper: alistSet preserves distinctness of keys. -/
theorem alistSet_keys_nodup (l : List (String × β)) (k : String) (v : β)
    (hnd : (l.map Prod.fst).Nodup) :
    ((alistSet l k v).map Prod.fst).Nodup := by
  refine List.nodup_cons.mpr ⟨?_, ?_⟩
  · intro hk
    obtain ⟨p, hp, hpk⟩ := List.mem_map.mp hk
    exact alistRemove_key_ne k l p hp hpk
  · exact ((alistRemove_sublist k l).map Prod.fst).nodup hnd

/-- Helper: membership through the ascending-by-time insertion. -/
theorem mem_insertByTimeAsc (x y : String × Nat) :
    ∀ l, x ∈ insertByTimeAsc y l ↔ x = y ∨ x ∈ l
  | [] => by simp [insertByTimeAsc]
  | z :: zs => by
      by_cases h : y.2 < z.2
      · simp [insertByTimeAsc, h]
      · simp only [insertByTimeAsc, if_neg h, List.mem_cons,
          mem_insertByTimeAsc x y zs]
        tauto

/-- Helper: the ascending insertion is a permutation of consing. -/
theorem insertByTimeAsc_perm (y : String × Nat) :
    ∀ l, List.Perm (insertByTimeAsc y l) (y :: l)
  | [] => List.Perm.refl _
  | z :: zs => by
      by_cases h : y.2 < z.2
      · rw [insertByTimeAsc, if_pos h]
      · rw [insertByTimeAsc, if_neg h]
        exact ((insertByTimeAsc_perm y zs).cons z).trans (List.Perm.swap y z zs)

/-- Helper: the time sort is a permutation. -/
theorem sortByTimeAsc_perm : ∀ (l : List (String × Nat)),
    List.Perm (sortByTimeAsc l) l
  | [] => List.Perm.refl _
  | z :: zs =>
      (insertByTimeAsc_perm z (sortByTimeAsc zs)).trans
        ((sortByTimeAsc_perm zs).cons z)

/-- Helper: in a time-sorted list every member is at most the last entry. -/
theorem le_getLast_of_sorted :
    ∀ (l : List (Nat × String × α)),
      List.Pairwise (fun a b => a.1 ≤ b.1) l →
      ∀ c0, l.getLast? = some c0 → ∀ x ∈ l, x.1 ≤ c0.1
  | [], _, c0, h, x, hx => by simp at hx
  | a :: t, hs, c0, h, x, hx => by
      cases ht : t with
      | nil =>
          subst ht
          simp only [List.getLast?_singleton, Option.some.injEq] at h
          subst h
          simp only [List.mem_singleton] at hx
          subst hx
          exact Nat.le_refl _
      | cons b t2 =>
          subst ht
          have h' : (b :: t2).getLast? = some c0 := by
            rw [← h, List.getLast?_cons_cons]
          have hs' := (List.pairwise_cons.mp hs).2
          rcases List.mem_cons.mp hx with hxa | hxt
          · subst hxa
            have hc0 : c0 ∈ b :: t2 := List.mem_of_mem_getLast? h'
            exact (List.pairwise_cons.mp hs).1 c0 hc0
          · exact le_getLast_of_sorted (b :: t2) hs' c0 h' x hxt

/-- Helper: cutting the strictly-before filter at a time past the last
same-key call changes nothing. -/
theorem callsBefore_eq_filter (P : List (Nat × String × α)) (j : String)
    (t : Nat) (hs : List.Pairwise (fun a b => a.1 ≤ b.1) P)
    (c0 : Nat × String × α)
    (hlast : (P.filter (fun c => c.2.1 = j)).getLast? = some c0)
    (hc0 : c0.1 < t) :
    callsBefore P j t = P.filter (fun c => c.2.1 = j) := by
  have hsf : List.Pairwise (fun a b : Nat × String × α => a.1 ≤ b.1)
      (P.filter (fun c => c.2.1 = j)) := hs.sublist (List.filter_sublist P)
  have hall : ∀ x ∈ P.filter (fun c => (c.2.1 = j : Prop)), x.1 < t := by
    intro x hx
    exact Nat.lt_of_le_of_lt (le_getLast_of_sorted _ hsf c0 hlast x hx) hc0
  have hsplit : callsBefore P j t =
      (P.filter (fun c => c.2.1 = j)).filter (fun c => c.1 < t) := by
    rw [callsBefore, List.filter_filter]
    exact List.filter_congr (fun c _ => by
      by_cases h1 : c.2.1 = j <;> by_cases h2 : c.1 < t <;> simp [h1, h2])
  rw [hsplit]
  exact List.filter_eq_self.mpr (fun x hx => by simp [hall x hx])

/-- Helper: pairwise transport through filterMap, with membership. -/
theorem pairwise_filterMap_mono {β γ : Type} (g : β → Option γ)
    (R : γ → γ → Prop) (S : β → β → Prop) :
    ∀ l : List β,
      (∀ a ∈ l, ∀ b ∈ l, ∀ x y, S a b → g a = some x → g b = some y → R x y) →
      l.Pairwise S → (l.filterMap g).Pairwise R
  | [], _, _ => by simp
  | a :: t, h, hp => by
      rcases List.pairwise_cons.mp hp with ⟨hhead, htail⟩
      have ht : ∀ a2 ∈ t, ∀ b ∈ t, ∀ x y,
          S a2 b → g a2 = some x → g b = some y → R x y := by
        intro a2 ha2 b hb
        exact h a2 (List.mem_cons_of_mem a ha2) b (List.mem_cons_of_mem a hb)
      cases hga : g a with
      | none =>
          rw [List.filterMap_cons_none hga]
          exact pairwise_filterMap_mono g R S t ht htail
      | some x =>
          rw [List.filterMap_cons_some hga]
          refine List.pairwise_cons.mpr
            ⟨?_, pairwise_filterMap_mono g R S t ht htail⟩
          intro y hy
          obtain ⟨b, hb, hgb⟩ := List.mem_filterMap.mp hy
          exact h a (List.mem_cons_self a t) b (List.mem_cons_of_mem a hb)
            x y (hhead b hb) hga hgb

/-- Helper: the effect of running the due-timer callbacks of a batch D with
distinct keys that agrees with the timers map: other keys keep their timers
and pending events, the batch keys lose their timers, the fired trace is
extended by the batch deliveries in batch order, and the timers map only
shrinks. -/
theorem fireBatch :
    ∀ (D : List (String × Nat)) (st : DebState α),
      (∀ p ∈ D, alistFind st.timers p.1 = some p.2) →
      ((D.map Prod.fst).Nodup) →
      (∀ j, j ∉ D.map Prod.fst →
          alistFind (D.foldl fireOne st).timers j = alistFind st.timers j ∧
          alistFind (D.foldl fireOne st).pending j = alistFind st.pending j) ∧
      (∀ j ∈ D.map Prod.fst, alistFind (D.foldl fireOne st).timers j = none) ∧
      ((D.foldl fireOne st).fired = st.fired ++
        D.filterMap (fun p =>
          (alistFind st.pending p.1).map (fun ev => (p.2, ev)))) ∧
      List.Sublist (D.foldl fireOne st).timers st.timers
  | [], st, _, _ => by
      refine ⟨fun j _ => ⟨rfl, rfl⟩, by simp, by simp, List.Sublist.refl _⟩
  | p :: D', st, hD, hnd => by
      have hpD' : p.1 ∉ D'.map Prod.fst := (List.nodup_cons.mp hnd).1
      have hndD' : (D'.map Prod.fst).Nodup := (List.nodup_cons.mp hnd).2
      cases hpe : alistFind st.pending p.1 with
      | some ev =>
          have hst1 : fireOne st p =
              { timers := alistRemove st.timers p.1
                pending := alistRemove st.pending p.1
                fired := st.fired ++ [(p.2, ev)] } := by
            rw [fireOne, hpe]
          have hD1 : ∀ q ∈ D', alistFind (fireOne st p).timers q.1 = some q.2 := by
            intro q hq
            have hne : ¬ q.1 = p.1 := by
              intro hc
              exact hpD' (hc ▸ List.mem_map_of_mem Prod.fst hq)
            rw [hst1]
            simp only
            rw [alistFind_alistRemove, if_neg hne]
            exact hD q (List.mem_cons_of_mem p hq)
          obtain ⟨c1, c2, c3, c4⟩ := fireBatch D' (fireOne st p) hD1 hndD'
          have hfold : (p :: D').foldl fireOne st = D'.foldl fireOne (fireOne st p) :=
            rfl
          refine ⟨?_, ?_, ?_, ?_⟩
          · intro j hj
            have hjp : ¬ j = p.1 := fun hc => hj (by
              rw [hc]
              exact List.mem_cons_self _ _)
            have hjD' : j ∉ D'.map Prod.fst := fun hc =>
              hj (List.mem_cons_of_mem _ hc)
            rw [hfold]
            obtain ⟨ht, hp⟩ := c1 j hjD'
            rw [ht, hp, hst1]
            simp only
            rw [alistFind_alistRemove, if_neg hjp, alistFind_alistRemove,
              if_neg hjp]
            constructor <;> rfl
          · intro j hj
            rw [hfold]
            rcases List.mem_cons.mp hj with hj | hj
            · have hjD' : j ∉ D'.map Prod.fst := fun hc => hpD' (hj ▸ hc)
              rw [(c1 j hjD').1, hst1]
              simp only
              rw [alistFind_alistRemove, if_pos hj]
            · exact c2 j hj
          · rw [hfold, c3, hst1]
            simp only
            have hcongr : D'.filterMap (fun q =>
                (alistFind (alistRemove st.pending p.1) q.1).map
                  (fun ev2 => (q.2, ev2))) =
                D'.filterMap (fun q =>
                  (alistFind st.pending q.1).map (fun ev2 => (q.2, ev2))) := by
              refine List.filterMap_congr (fun q hq => ?_)
              have hne : ¬ q.1 = p.1 := by
                intro hc
                exact hpD' (hc ▸ List.mem_map_of_mem Prod.fst hq)
              rw [alistFind_alistRemove, if_neg hne]
            rw [hcongr]
            have hsome : List.filterMap (fun q =>
                Option.map (fun ev2 => (q.2, ev2)) (alistFind st.pending q.1))
                (p :: D') =
                (p.2, ev) :: List.filterMap (fun q =>
                  Option.map (fun ev2 => (q.2, ev2)) (alistFind st.pending q.1)) D' := by
              rw [List.filterMap_cons]
              simp [hpe]
            rw [hsome, List.append_assoc, List.singleton_append]
          · rw [hfold]
            refine c4.trans ?_
            rw [hst1]
            simp only
            exact alistRemove_sublist p.1 st.timers
      | none =>
          have hst1 : fireOne st p = { st with timers := alistRemove st.timers p.1 } := by
            rw [fireOne, hpe]
          have hD1 : ∀ q ∈ D', alistFind (fireOne st p).timers q.1 = some q.2 := by
            intro q hq
            have hne : ¬ q.1 = p.1 := by
              intro hc
              exact hpD' (hc ▸ List.mem_map_of_mem Prod.fst hq)
            rw [hst1]
            simp only
            rw [alistFind_alistRemove, if_neg hne]
            exact hD q (List.mem_cons_of_mem p hq)
          obtain ⟨c1, c2, c3, c4⟩ := fireBatch D' (fireOne st p) hD1 hndD'
          have hfold : (p :: D').foldl fireOne st = D'.foldl fireOne (fireOne st p) :=
            rfl
          refine ⟨?_, ?_, ?_, ?_⟩
          · intro j hj
            have hjp : ¬ j = p.1 := fun hc => hj (by
              rw [hc]
              exact List.mem_cons_self _ _)
            have hjD' : j ∉ D'.map Prod.fst := fun hc =>
              hj (List.mem_cons_of_mem _ hc)
            rw [hfold]
            obtain ⟨ht, hp⟩ := c1 j hjD'
            rw [ht, hp, hst1]
            simp only
            rw [alistFind_alistRemove, if_neg hjp]
            constructor <;> first | rfl | trivial
          · intro j hj
            rw [hfold]
            rcases List.mem_cons.mp hj with hj | hj
            · have hjD' : j ∉ D'.map Prod.fst := fun hc => hpD' (hj ▸ hc)
              rw [(c1 j hjD').1, hst1]
              simp only
              rw [alistFind_alistRemove, if_pos hj]
            · exact c2 j hj
          · rw [hfold, c3, hst1]
            simp only
            have hnone : List.filterMap (fun q =>
                Option.map (fun ev2 => (q.2, ev2)) (alistFind st.pending q.1))
                (p :: D') =
                List.filterMap (fun q =>
                  Option.map (fun ev2 => (q.2, ev2)) (alistFind st.pending q.1)) D' := by
              rw [List.filterMap_cons]
              simp [hpe]
            rw [hnone]
          · rw [hfold]
            refine c4.trans ?_
            rw [hst1]
            simp only
            exact alistRemove_sublist p.1 st.timers

/-- Helper: one debounce call preserves the run invariant, moving the
clock to the call time. -/
theorem DebInv_step {delay B : Nat} {P : List (Nat × String × α)}
    {st : DebState α} (hdelay : 0 < delay) (hinv : DebInv delay B P st)
    (tc : Nat) (hBtc : B ≤ tc) (k : String) (d : α) :
    DebInv delay tc (P ++ [(tc, k, d)]) (debounceStep delay st (tc, k, d)) := by
  have hDperm : List.Perm (sortByTimeAsc (st.timers.filter (fun kt => kt.2 ≤ tc)))
      (st.timers.filter (fun kt => kt.2 ≤ tc)) := sortByTimeAsc_perm _
  have hmemD : ∀ p, p ∈ sortByTimeAsc (st.timers.filter (fun kt => kt.2 ≤ tc)) ↔
      p ∈ st.timers ∧ p.2 ≤ tc := by
    intro p
    rw [hDperm.mem_iff]
    simp [List.mem_filter]
  have hndD : ((sortByTimeAsc (st.timers.filter (fun kt => kt.2 ≤ tc))).map
      Prod.fst).Nodup := by
    refine (hDperm.map Prod.fst).nodup_iff.mpr ?_
    exact ((List.filter_sublist st.timers).map Prod.fst).nodup hinv.keysNodup
  have hD : ∀ p ∈ sortByTimeAsc (st.timers.filter (fun kt => kt.2 ≤ tc)),
      alistFind st.timers p.1 = some p.2 := by
    intro p hp
    exact alistFind_eq_of_mem p st.timers hinv.keysNodup ((hmemD p).mp hp).1
  obtain ⟨c1, c2, c3, c4⟩ :=
    fireBatch (sortByTimeAsc (st.timers.filter (fun kt => kt.2 ≤ tc))) st hD hndD
  have hst1 : fireDue st tc =
      (sortByTimeAsc (st.timers.filter (fun kt => kt.2 ≤ tc))).foldl fireOne st :=
    rfl
  rw [← hst1] at c1 c2 c3 c4
  have hnew : ∀ x ∈ (fireDue st tc).fired, x ∈ st.fired ∨
      ∃ p ∈ st.timers, p.2 ≤ tc ∧ ∃ ev, alistFind st.pending p.1 = some ev ∧
        ev.key = p.1 ∧ p.2 = ev.timestamp + delay ∧ ev.timestamp ≤ B ∧
        (P.filter (fun c => c.2.1 = p.1)).getLast? =
          some (ev.timestamp, p.1, ev.data) ∧ x = (p.2, ev) := by
    intro x hx
    rw [c3] at hx
    rcases List.mem_append.mp hx with hx | hx
    · exact Or.inl hx
    · right
      obtain ⟨p, hpD, hg⟩ := List.mem_filterMap.mp hx
      obtain ⟨hpt, hple⟩ := (hmemD p).mp hpD
      obtain ⟨ev, hev, hkey, hts, hle, hlast⟩ := hinv.sync p hpt
      refine ⟨p, hpt, hple, ev, hev, hkey, hts, hle, hlast, ?_⟩
      rw [hev] at hg
      simp only [Option.map_some', Option.some.injEq] at hg
      exact hg.symm
  have hndt1 : ((fireDue st tc).timers.map Prod.fst).Nodup :=
    (c4.map Prod.fst).nodup hinv.keysNodup
  have hsurv : ∀ p ∈ (fireDue st tc).timers, p ∈ st.timers ∧
      tc < p.2 ∧
      alistFind (fireDue st tc).pending p.1 = alistFind st.pending p.1 := by
    intro p hp
    have hpt : p ∈ st.timers := c4.subset hp
    have hfind : alistFind (fireDue st tc).timers p.1 = some p.2 :=
      alistFind_eq_of_mem p _ hndt1 hp
    have hnotD : p.1 ∉
        (sortByTimeAsc (st.timers.filter (fun kt => kt.2 ≤ tc))).map Prod.fst := by
      intro hc
      rw [c2 p.1 hc] at hfind
      exact Option.noConfusion hfind
    have hnotdue : tc < p.2 := by
      by_contra hle2
      refine hnotD (List.mem_map_of_mem Prod.fst ((hmemD p).mpr ⟨hpt, ?_⟩))
      omega
    exact ⟨hpt, hnotdue, (c1 p.1 hnotD).2⟩
  have hfired1 : ∀ x ∈ (fireDue st tc).fired, x.1 ≤ tc := by
    intro x hx
    rcases hnew x hx with hx | ⟨p, _, hple, ev, _, _, _, _, _, hxp⟩
    · exact Nat.le_trans (hinv.firedLeB x hx) hBtc
    · rw [hxp]
      exact hple
  show DebInv delay tc (P ++ [(tc, k, d)])
    (debounceCall delay (fireDue st tc) tc k d)
  refine
    { keysNodup := ?_, timersGtB := ?_, sync := ?_, firedLeB := ?_
      firedProp := ?_, firedGap := ?_, timerAfterFired := ?_
      callsLeB := ?_, callsSorted := ?_ }
  · exact alistSet_keys_nodup _ k (tc + delay) hndt1
  · intro p hp
    rcases List.mem_cons.mp hp with hp | hp
    · rw [hp]
      show tc < tc + delay
      omega
    · have hp1 := (alistRemove_sublist k (fireDue st tc).timers).subset hp
      exact (hsurv p hp1).2.1
  · intro p hp
    rcases List.mem_cons.mp hp with hp | hp
    · subst hp
      refine ⟨{ key := k, data := d, timestamp := tc }, ?_, rfl, rfl,
        Nat.le_refl tc, ?_⟩
      · show alistFind (alistSet (fireDue st tc).pending k
          { key := k, data := d, timestamp := tc }) k = _
        rw [alistFind_alistSet, if_pos rfl]
      · show (List.filter (fun c => decide (c.2.1 = k)) (P ++ [(tc, k, d)])).getLast? = _
        rw [List.filter_append]
        have hsing : List.filter (fun c => decide (c.2.1 = k))
            ([(tc, k, d)] : List (Nat × String × α)) = [(tc, k, d)] := by simp
        rw [hsing, List.getLast?_concat]
    · have hp1 := (alistRemove_sublist k (fireDue st tc).timers).subset hp
      have hkne : ¬ p.1 = k := alistRemove_key_ne k _ p hp
      obtain ⟨hpt, hgt, hpend⟩ := hsurv p hp1
      obtain ⟨ev, hev, hkey, hts, hle, hlast⟩ := hinv.sync p hpt
      refine ⟨ev, ?_, hkey, hts, Nat.le_trans hle hBtc, ?_⟩
      · show alistFind (alistSet (fireDue st tc).pending k
          { key := k, data := d, timestamp := tc }) p.1 = some ev
        rw [alistFind_alistSet, if_neg hkne, hpend, hev]
      · rw [List.filter_append]
        have hsing : List.filter (fun c => decide (c.2.1 = p.1))
            ([(tc, k, d)] : List (Nat × String × α)) = [] := by
          have : ¬ ((tc, k, d).2.1 = p.1) := fun hc => hkne hc.symm
          simp [this]
        rw [hsing, List.append_nil]
        exact hlast
  · intro x hx
    exact hfired1 x hx
  · intro x hx
    rcases hnew x hx with hxo | ⟨p, hpt, hple, ev, hev, hkey, hts, hle, hlast, hxp⟩
    · obtain ⟨h1, h2⟩ := hinv.firedProp x hxo
      refine ⟨h1, ?_⟩
      have hxB : x.1 ≤ B := hinv.firedLeB x hxo
      rw [callsBefore, List.filter_append]
      have hsing : List.filter (fun c => decide (c.2.1 = x.2.key ∧ c.1 < x.1))
          ([(tc, k, d)] : List (Nat × String × α)) = [] := by
        have : ¬ ((tc, k, d).2.1 = x.2.key ∧ (tc, k, d).1 < x.1) := by
          rintro ⟨-, h2c⟩
          simp only at h2c
          omega
        simp [this]
      rw [hsing, List.append_nil]
      rw [callsBefore] at h2
      exact h2
    · subst hxp
      refine ⟨by simpa using hts, ?_⟩
      simp only
      rw [callsBefore, List.filter_append]
      have hsing : List.filter (fun c => decide (c.2.1 = ev.key ∧ c.1 < p.2))
          ([(tc, k, d)] : List (Nat × String × α)) = [] := by
        have : ¬ ((tc, k, d).2.1 = ev.key ∧ (tc, k, d).1 < p.2) := by
          rintro ⟨-, h2c⟩
          simp only at h2c
          omega
        simp [this]
      rw [hsing, List.append_nil]
      have heq := callsBefore_eq_filter P ev.key p.2 hinv.callsSorted
        (ev.timestamp, p.1, ev.data) (by rw [hkey]; exact hlast)
        (by show ev.timestamp < p.2; omega)
      rw [callsBefore] at heq
      rw [heq, hkey]
      exact hlast
  · show List.Pairwise _ (fireDue st tc).fired
    rw [c3]
    refine List.pairwise_append.mpr ⟨hinv.firedGap, ?_, ?_⟩
    · refine pairwise_filterMap_mono _ _ (fun a b => ¬ a.1 = b.1) _ ?_ ?_
      · intro a ha b hb x y hab hga hgb
        obtain ⟨hat, hale⟩ := (hmemD a).mp ha
        obtain ⟨hbt, hble⟩ := (hmemD b).mp hb
        obtain ⟨eva, heva, hkeya, -, -, -⟩ := hinv.sync a hat
        obtain ⟨evb, hevb, hkeyb, -, -, -⟩ := hinv.sync b hbt
        rw [heva] at hga
        rw [hevb] at hgb
        simp only [Option.map_some', Option.some.injEq] at hga hgb
        intro hkeq
        exfalso
        apply hab
        rw [← hkeya, ← hkeyb, ← hga, ← hgb] at *
        exact hkeq
      · exact (List.pairwise_map.mp hndD)
    · intro a ha y hy
      obtain ⟨q, hqD, hgq⟩ := List.mem_filterMap.mp hy
      obtain ⟨hqt, hqle⟩ := (hmemD q).mp hqD
      obtain ⟨evq, hevq, hkeyq, -, -, -⟩ := hinv.sync q hqt
      rw [hevq] at hgq
      simp only [Option.map_some', Option.some.injEq] at hgq
      intro hkeq
      have := hinv.timerAfterFired q hqt a ha (by rw [hkeq, ← hgq, hkeyq])
      rw [← hgq]
      exact this
  · intro p hp x hx hxkey
    rcases List.mem_cons.mp hp with hp | hp
    · subst hp
      have := hfired1 x hx
      show x.1 + delay ≤ tc + delay
      omega
    · have hp1 := (alistRemove_sublist k (fireDue st tc).timers).subset hp
      obtain ⟨hpt, hgt, -⟩ := hsurv p hp1
      rcases hnew x hx with hxo | ⟨q, hqt, hqle, evq, hevq, hkeyq, hts, -, -, hxp⟩
      · exact hinv.timerAfterFired p hpt x hxo hxkey
      · exfalso
        subst hxp
        simp only at hxkey
        have hqp : q = p := alist_mem_unique st.timers hinv.keysNodup q p hqt hpt
          (by rw [← hkeyq, hxkey])
        rw [hqp] at hqle
        omega
  · intro c hc
    rcases List.mem_append.mp hc with hc | hc
    · exact Nat.le_trans (hinv.callsLeB c hc) hBtc
    · simp only [List.mem_singleton] at hc
      rw [hc]
  · refine List.pairwise_append.mpr ⟨hinv.callsSorted, by simp, ?_⟩
    intro a ha b hb
    simp only [List.mem_singleton] at hb
    rw [hb]
    exact Nat.le_trans (hinv.callsLeB a ha) hBtc


/-- Helper: folding a time-sorted call sequence preserves the invariant. -/
theorem DebInv_run {delay : Nat} (hdelay : 0 < delay) :
    ∀ (calls : List (Nat × String × α)) (B : Nat)
      (P : List (Nat × String × α)) (st : DebState α),
      DebInv delay B P st →
      (∀ c ∈ calls, B ≤ c.1) →
      List.Pairwise (fun a b => a.1 ≤ b.1) calls →
      ∃ B2, DebInv delay B2 (P ++ calls) (calls.foldl (debounceStep delay) st)
  | [], B, P, st, hinv, _, _ => ⟨B, by simpa using hinv⟩
  | c :: cs, B, P, st, hinv, hge, hsor => by
      obtain ⟨tc, k, d⟩ := c
      have hBtc : B ≤ tc := hge (tc, k, d) (List.mem_cons_self _ _)
      have h1 := DebInv_step hdelay hinv tc hBtc k d
      have hge2 : ∀ c2 ∈ cs, tc ≤ c2.1 := (List.pairwise_cons.mp hsor).1
      have hsor2 := (List.pairwise_cons.mp hsor).2
      obtain ⟨B2, h2⟩ := DebInv_run hdelay cs tc (P ++ [(tc, k, d)]) _ h1 hge2 hsor2
      rw [List.append_assoc, List.singleton_append] at h2
      exact ⟨B2, h2⟩

/-- Helper: after the run, letting every remaining timer fire keeps the
per-key gap and freshness properties of the full fired trace. -/
theorem DebInv_flush {delay B : Nat} {P : List (Nat × String × α)}
    {st : DebState α} (hdelay : 0 < delay) (hinv : DebInv delay B P st) :
    List.Pairwise (fun x y => x.2.key = y.2.key → x.1 + delay ≤ y.1)
      ((sortByTimeAsc st.timers).foldl fireOne st).fired ∧
    ∀ x ∈ ((sortByTimeAsc st.timers).foldl fireOne st).fired,
      x.1 = x.2.timestamp + delay ∧
      (callsBefore P x.2.key x.1).getLast? =
        some (x.2.timestamp, x.2.key, x.2.data) := by
  have hDperm : List.Perm (sortByTimeAsc st.timers) st.timers :=
    sortByTimeAsc_perm _
  have hmemD : ∀ p, p ∈ sortByTimeAsc st.timers ↔ p ∈ st.timers := by
    intro p
    exact hDperm.mem_iff
  have hndD : ((sortByTimeAsc st.timers).map Prod.fst).Nodup :=
    (hDperm.map Prod.fst).nodup_iff.mpr hinv.keysNodup
  have hD : ∀ p ∈ sortByTimeAsc st.timers, alistFind st.timers p.1 = some p.2 := by
    intro p hp
    exact alistFind_eq_of_mem p st.timers hinv.keysNodup ((hmemD p).mp hp)
  obtain ⟨c1, c2, c3, c4⟩ := fireBatch (sortByTimeAsc st.timers) st hD hndD
  constructor
  · rw [c3]
    refine List.pairwise_append.mpr ⟨hinv.firedGap, ?_, ?_⟩
    · refine pairwise_filterMap_mono _ _ (fun a b => ¬ a.1 = b.1) _ ?_ ?_
      · intro a ha b hb x y hab hga hgb
        have hat := (hmemD a).mp ha
        have hbt := (hmemD b).mp hb
        obtain ⟨eva, heva, hkeya, -, -, -⟩ := hinv.sync a hat
        obtain ⟨evb, hevb, hkeyb, -, -, -⟩ := hinv.sync b hbt
        rw [heva] at hga
        rw [hevb] at hgb
        simp only [Option.map_some', Option.some.injEq] at hga hgb
        intro hkeq
        exfalso
        apply hab
        rw [← hga, ← hgb] at hkeq
        simp only at hkeq
        rw [← hkeya, ← hkeyb]
        exact hkeq
      · exact List.pairwise_map.mp hndD
    · intro a ha y hy
      obtain ⟨q, hqD, hgq⟩ := List.mem_filterMap.mp hy
      have hqt := (hmemD q).mp hqD
      obtain ⟨evq, hevq, hkeyq, -, -, -⟩ := hinv.sync q hqt
      rw [hevq] at hgq
      simp only [Option.map_some', Option.some.injEq] at hgq
      intro hkeq
      have := hinv.timerAfterFired q hqt a ha (by rw [hkeq, ← hgq, hkeyq])
      rw [← hgq]
      exact this
  · intro x hx
    rw [c3] at hx
    rcases List.mem_append.mp hx with hxo | hxn
    · exact hinv.firedProp x hxo
    · obtain ⟨q, hqD, hgq⟩ := List.mem_filterMap.mp hxn
      have hqt := (hmemD q).mp hqD
      obtain ⟨evq, hevq, hkeyq, hts, hle, hlast⟩ := hinv.sync q hqt
      rw [hevq] at hgq
      simp only [Option.map_some', Option.some.injEq] at hgq
      rw [← hgq]
      refine ⟨by simpa using hts, ?_⟩
      simp only
      have heq := callsBefore_eq_filter P evq.key q.2 hinv.callsSorted
        (evq.timestamp, q.1, evq.data) (by rw [hkeyq]; exact hlast)
        (by show evq.timestamp < q.2; omega)
      rw [heq, hkeyq]
      exact hlast

/-- C7: the debouncer as the source implements it satisfies the claim:
(a) a debounce call for a key replaces that key's timer with one scheduled
exactly debounceDelay after the call and stores the call's payload as the
pending event; (b) over any time-ordered call sequence with positive delay,
consecutive deliveries for the same key are at least one debounce delay
apart (at most one fire per key per window), and every delivered event
fires exactly delay after the most recent call for its key - its payload
is the data of the latest call strictly before the fire time. -/
theorem C7_debouncer_behavior :
    (∀ (α : Type) (delay : Nat) (st : DebState α) (now : Nat) (k : String)
        (d : α),
        alistFind (debounceCall delay st now k d).timers k = some (now + delay) ∧
        alistFind (debounceCall delay st now k d).pending k =
          some { key := k, data := d, timestamp := now }) ∧
    (∀ (α : Type) (delay : Nat) (calls : List (Nat × String × α)),
        0 < delay → List.Pairwise (fun a b => a.1 ≤ b.1) calls →
        List.Pairwise (fun x y => x.2.key = y.2.key → x.1 + delay ≤ y.1)
          (debouncerRun delay calls).fired ∧
        ∀ x ∈ (debouncerRun delay calls).fired,
          x.1 = x.2.timestamp + delay ∧
          (callsBefore calls x.2.key x.1).getLast? =
            some (x.2.timestamp, x.2.key, x.2.data)) := by
  constructor
  · intro α delay st now k d
    constructor
    · show alistFind (alistSet st.timers k (now + delay)) k = _
      rw [alistFind_alistSet, if_pos rfl]
    · show alistFind (alistSet st.pending k
        { key := k, data := d, timestamp := now }) k = _
      rw [alistFind_alistSet, if_pos rfl]
  · intro α delay calls hdelay hsor
    have hinit : DebInv delay 0 ([] : List (Nat × String × α))
        { timers := [], pending := [], fired := [] } :=
      ⟨by simp, by simp, by simp, by simp, by simp, by simp, by simp,
       by simp, by simp⟩
    obtain ⟨B2, hrun⟩ := DebInv_run hdelay calls 0 []
      { timers := [], pending := [], fired := [] } hinit
      (fun c _ => Nat.zero_le _) hsor
    rw [List.nil_append] at hrun
    exact DebInv_flush hdelay hrun

/-- Witness for C7: the concrete three-call schedule delivers exactly two
events - payload 2 at time 3 (the calls at 0 and 1 coalesced) and payload 3
at time 7 - and the claimed gap and freshness properties hold of that run;
the per-call component is instantiated at a concrete call. -/
theorem C7_debouncer_behavior_witness :
    (debouncerRun 2 callsW).fired =
      [(3, { key := "a", data := 2, timestamp := 1 }),
       (7, { key := "a", data := 3, timestamp := 5 })] ∧
    List.Pairwise (fun x y => x.2.key = y.2.key → x.1 + 2 ≤ y.1)
      (debouncerRun 2 callsW).fired ∧
    (∀ x ∈ (debouncerRun 2 callsW).fired,
      x.1 = x.2.timestamp + 2 ∧
      (callsBefore callsW x.2.key x.1).getLast? =
        some (x.2.timestamp, x.2.key, x.2.data)) ∧
    alistFind (debounceCall 2
      ({ timers := [], pending := [], fired := [] } : DebState Nat)
      4 "q" 9).timers "q" = some 6 := by
  refine ⟨rfl, ?_, ?_, ?_⟩
  · exact (C7_debouncer_behavior.2 Nat 2 callsW (by omega) (by decide)).1
  · exact (C7_debouncer_behavior.2 Nat 2 callsW (by omega) (by decide)).2
  · exact (C7_debouncer_behavior.1 Nat 2
      { timers := [], pending := [], fired := [] } 4 "q" 9).1

end DevInsights
